import Mathlib

/-!
Verification development for the excel-cli spreadsheet engine (src/main.c).

The C program is shallowly embedded as follows:
* C `double` is modelled as `ℚ`; every arithmetic fact proved here only
  involves values and operations that are exact in IEEE-754 binary64
  (small integers, halves and quarters), so the rational model agrees with
  the C semantics on them.  Division by zero is never exercised.
* C `size_t` is modelled as `Nat` with explicit wrap-around `% 2^64` where
  the C code can overflow or underflow (`nbor_in_dir`,`(size_t)` casts).
* Fatal errors (`exit(1)` after an error message, and failing `assert`s,
  which are enabled by the build flags) are modelled as an `Except Err`
  error result.
* The expression arena (`Expr_Buffer`) is a list of nodes addressed by
  position; `expr_buffer_alloc` appends.  The evaluator additionally works
  on decoded inductive trees (`Expr`); the arena invariant justifying the
  decoding (children handles strictly below the parent handle) is proved
  separately.
* Recursion that is unbounded in C (`table_eval_cell`, the recursive
  descent parser, `bin_pow`) is given explicit fuel; running out of fuel is
  the distinguished error `Err.fuel`, never a value.
-/

namespace ExcelCli

/-- `2^64`, the modulus of C `size_t` arithmetic. -/
def W64 : Nat := 2 ^ 64

/-- `size_t` decrement (`index.col --` in `nbor_in_dir`), wrapping at `2^64`. -/
def sizeDec (n : Nat) : Nat := (n + (W64 - 1)) % W64

/-- `size_t` increment (`index.col ++` in `nbor_in_dir`), wrapping at `2^64`. -/
def sizeInc (n : Nat) : Nat := (n + 1) % W64

/-- C cast `(size_t) x` of a (possibly negative) integer. -/
def castSizeT (z : ℤ) : Nat := (z % (W64 : ℤ)).toNat

/-- `isspace` of the C locale: the six standard whitespace characters. -/
def isSpaceChar (c : Char) : Bool :=
  c = (' ') || c = ('\t') || c = ('\n') || c = ('\x0b') || c = ('\x0c') || c = ('\r')

/-- `is_name` from main.c: `isalnum(c) || c == '_'`. -/
def is_name (c : Char) : Bool := c.isAlphanum || c = ('_')

/-- `sv_trim_left`. -/
def sv_trim_left (s : List Char) : List Char := s.dropWhile isSpaceChar

/-- `sv_trim_right`. -/
def sv_trim_right (s : List Char) : List Char := (s.reverse.dropWhile isSpaceChar).reverse

/-- `sv_trim`: trim whitespace from both ends. -/
def sv_trim (s : List Char) : List Char := sv_trim_right (sv_trim_left s)

/-- Digits to a natural number, most significant first. -/
def digitsToNat (ds : List Char) : Nat := ds.foldl (fun a c => a * 10 + (c.toNat - 48)) 0

/-- Model of C `strtod` restricted to decimal literals: skips leading
whitespace, then an optional sign, integer digits, an optional fractional
part and an optional exponent; returns the value and the unconsumed rest
(the `endptr` position), or `none` when no conversion was performed.
Hexadecimal, infinity and NaN forms are not modelled; no input in this
development uses them. -/
def strtodNum (s : List Char) : Option (ℚ × List Char) :=
  let s0 := s.dropWhile isSpaceChar
  let (sgn, s1) : ℚ × List Char :=
    match s0 with
    | ('+') :: r => (1, r)
    | ('-') :: r => (-1, r)
    | r => (1, r)
  let ip := s1.takeWhile Char.isDigit
  let s2 := s1.dropWhile Char.isDigit
  let (fp, s3) : List Char × List Char :=
    match s2 with
    | ('.') :: r => (r.takeWhile Char.isDigit, r.dropWhile Char.isDigit)
    | _ => ([], s2)
  if ip.isEmpty && fp.isEmpty then none
  else
    let mant : ℚ := sgn * ((digitsToNat ip : ℚ) + (digitsToNat fp : ℚ) / ((10 : ℚ) ^ fp.length))
    match s3 with
    | e :: r =>
      if e = ('e') || e = ('E') then
        let (esgn, r1) : ℤ × List Char :=
          match r with
          | ('+') :: rr => (1, rr)
          | ('-') :: rr => (-1, rr)
          | rr => (1, rr)
        let ed := r1.takeWhile Char.isDigit
        let r2 := r1.dropWhile Char.isDigit
        if ed.isEmpty then some (mant, s3)
        else some (mant * (10 : ℚ) ^ (esgn * (digitsToNat ed : ℤ)), r2)
      else some (mant, s3)
    | [] => some (mant, [])

/-- `sv_strtod`: full-field `strtod`, succeeding only when something was
consumed and `*endptr == '\0'`. -/
def sv_strtod (s : List Char) : Option ℚ :=
  match strtodNum s with
  | some (v, []) => some v
  | _ => none

/-- Model of C `strtol` base 10: whitespace, optional sign, digits. -/
def strtolNum (s : List Char) : Option (ℤ × List Char) :=
  let s0 := s.dropWhile isSpaceChar
  let (sgn, s1) : ℤ × List Char :=
    match s0 with
    | ('+') :: r => (1, r)
    | ('-') :: r => (-1, r)
    | r => (1, r)
  let ds := s1.takeWhile Char.isDigit
  let s2 := s1.dropWhile Char.isDigit
  if ds.isEmpty then none else some (sgn * (digitsToNat ds : ℤ), s2)

/-- `sv_strtol`: full-field `strtol`. -/
def sv_strtol (s : List Char) : Option ℤ :=
  match strtolNum s with
  | some (v, []) => some v
  | _ => none

/-- The error taxonomy.  Every `exit(1)` path and every enabled `assert`
of the engine is one of these; `fuel` stands for exhaustion of the
explicit fuel that replaces the C call stack. -/
inductive Err
  | lex            -- unknown token character
  | primaryEnd     -- expected primary expression token, got end of input
  | badCellRef     -- cell reference must start with capital letter
  | badRow         -- cell reference must have an integer row
  | expectRParen   -- expected token ')'
  | trailing       -- unexpected token after a complete expression
  | invalidCloneDir -- not a correct direction to clone a cell from
  | bounds         -- table_cell_at assertion: index outside the table
  | cloneBounds    -- trying to clone a cell outside of the table
  | cycle          -- circular dependency is detected
  | typeText       -- text cells may not participate in math expressions
  | cloneEvaluated -- UNREACHABLE: evaluated clone observed
  | fuel           -- fuel exhausted (C: unbounded recursion)
deriving DecidableEq, Repr

/-- The single-character operator tokens of `lexer_peek_token`. -/
def isOpChar (c : Char) : Bool :=
  c = ('+') || c = ('-') || c = ('*') || c = ('/') || c = ('(') || c = (')') || c = ('^')

/-- `lexer_peek_token`: trim, then an operator character or a maximal
name run; the empty token signals end of input.  Returns the token and
the trimmed source (the lexer stores the trimmed source back). -/
def lexer_peek_token (src : List Char) : Except Err (List Char × List Char) :=
  let s := sv_trim src
  match s with
  | [] => .ok ([], s)
  | c :: _ =>
    if isOpChar c then .ok ([c], s)
    else if is_name c then .ok (s.takeWhile is_name, s)
    else .error .lex

/-- `lexer_next_token`: peek, then chop the token off the source. -/
def lexer_next_token (src : List Char) : Except Err (List Char × List Char) :=
  match lexer_peek_token src with
  | .error e => .error e
  | .ok (tok, s) => .ok (tok, s.drop tok.length)

/-- `lexer_expect_no_tokens`. -/
def lexer_expect_no_tokens (src : List Char) : Except Err Unit :=
  match lexer_next_token src with
  | .error e => .error e
  | .ok (tok, _) => if tok.isEmpty then .ok () else .error .trailing

/-- `Bop_Kind`. -/
inductive BopKind
  | plus | minus | mult | div | pow
deriving DecidableEq, Repr

/-- The `precedence` field of `bop_defs`. -/
def bopPrecedence : BopKind → Nat
  | .plus => 0
  | .minus => 0
  | .mult => 1
  | .div => 1
  | .pow => 1

/-- `COUNT_BOP_PRECEDENCE`. -/
def COUNT_BOP_PRECEDENCE : Nat := 2

/-- `bop_def_by_token`. -/
def bop_def_by_token (tok : List Char) : Option BopKind :=
  if tok = [('+')] then some .plus
  else if tok = [('-')] then some .minus
  else if tok = [('*')] then some .mult
  else if tok = [('/')] then some .div
  else if tok = [('^')] then some .pow
  else none

/-- An expression-arena node (`struct Expr` without the source-location
fields, which only feed error messages). -/
inductive Node
  | num (v : ℚ)
  | cellRef (row col : Nat)
  | bop (k : BopKind) (lhs rhs : Nat)
  | uop (param : Nat)          -- UOP_KIND_MINUS is the only unary operator
deriving DecidableEq, Repr

/-- `Expr_Buffer`: append-only arena addressed by position. -/
abbrev Arena := List Node

/-- `expr_buffer_alloc` followed by initialising the fresh node: append
and return the node's handle. -/
def expr_buffer_alloc (eb : Arena) (n : Node) : Nat × Arena := (eb.length, eb ++ [n])

/-- The body of `parse_primary_expr`, abstracted over the function used
for the nested full-expression parses (the parenthesised group and the
operand of unary minus, both of which call `parse_expr` in C): number
literal, parenthesised expression, unary minus, or cell reference. -/
def parse_primary_body
    (pe : List Char → Arena → Except Err (Nat × Arena × List Char))
    (src : List Char) (eb : Arena) : Except Err (Nat × Arena × List Char) := do
  let (tok, src) ← lexer_next_token src
  if tok.isEmpty then .error .primaryEnd
  else
    match sv_strtod tok with
    | some v =>
      let (i, eb) := expr_buffer_alloc eb (.num v)
      .ok (i, eb, src)
    | none =>
      if tok = [('(')] then do
        let (i, eb, src) ← pe src eb
        let (tok2, src) ← lexer_next_token src
        if tok2 = [(')')] then .ok (i, eb, src) else .error .expectRParen
      else if tok = [('-')] then do
        let (p, eb, src) ← pe src eb
        let (i, eb) := expr_buffer_alloc eb (.uop p)
        .ok (i, eb, src)
      else
        match tok with
        | c :: rest =>
          if c.isUpper then
            match sv_strtol rest with
            | some row =>
              let (i, eb) := expr_buffer_alloc eb (.cellRef (castSizeT row) (c.toNat - 65))
              .ok (i, eb, src)
            | none => .error .badRow
          else .error .badCellRef
        | [] => .error .badCellRef

/-- `parse_bop_expr`: at each precedence level parse the tighter level as
the left operand, and when the peeked operator has exactly this level,
recurse at the same level for the right operand (right recursion).
Past the last precedence level it parses a primary expression. -/
def parse_bop_expr : Nat → Nat → List Char → Arena → Except Err (Nat × Arena × List Char)
  | 0, _, _, _ => .error .fuel
  | fuel + 1, prec, src, eb =>
    if COUNT_BOP_PRECEDENCE ≤ prec then
      parse_primary_body (fun s e => parse_bop_expr fuel 0 s e) src eb
    else do
      let (lhs, eb, src) ← parse_bop_expr fuel (prec + 1) src eb
      let (tok, _) ← lexer_peek_token src
      match bop_def_by_token tok with
      | some k =>
        if bopPrecedence k = prec then do
          let (_, src) ← lexer_next_token src
          let (rhs, eb, src) ← parse_bop_expr fuel prec src eb
          let (i, eb) := expr_buffer_alloc eb (.bop k lhs rhs)
          .ok (i, eb, src)
        else .ok (lhs, eb, src)
      | none => .ok (lhs, eb, src)

/-- `parse_primary_expr` with explicit fuel for its nested `parse_expr`
calls. -/
def parse_primary_expr (fuel : Nat) (src : List Char) (eb : Arena) :
    Except Err (Nat × Arena × List Char) :=
  parse_primary_body (fun s e => parse_bop_expr fuel 0 s e) src eb

/-- `parse_expr`: entry point at the lowest precedence. -/
def parse_expr (fuel : Nat) (src : List Char) (eb : Arena) :
    Except Err (Nat × Arena × List Char) :=
  parse_bop_expr fuel 0 src eb

/-- `Dir`: the four clone directions. -/
inductive Dir
  | left | right | up | down
deriving DecidableEq, Repr

/-- `opposite_dir`. -/
def opposite_dir : Dir → Dir
  | .left => .right
  | .right => .left
  | .up => .down
  | .down => .up

/-- `Cell_Index`. -/
structure CellIndex where
  row : Nat
  col : Nat
deriving DecidableEq, Repr

/-- `nbor_in_dir`: offset a cell index by one step in a direction, with
`size_t` wrap-around (underflow at 0 produces `2^64 - 1`, which the
bounds checks then reject). -/
def nbor_in_dir (i : CellIndex) (d : Dir) : CellIndex :=
  match d with
  | .left => { i with col := sizeDec i.col }
  | .right => { i with col := sizeInc i.col }
  | .up => { i with row := sizeDec i.row }
  | .down => { i with row := sizeInc i.row }

/-- The expression tree denoted by an arena handle (the arena stores
trees flattened; this inductive is the decoded form the evaluator works
on). -/
inductive Expr
  | num (v : ℚ)
  | cellRef (row col : Nat)
  | bop (k : BopKind) (lhs rhs : Expr)
  | neg (e : Expr)
deriving DecidableEq, Repr

/-- Decode the arena node at handle `i` into a tree, following child
handles; fuel bounds the recursion depth (the arena invariant proved
below shows `i + 1` fuel always suffices for handle `i`). -/
def decodeExpr : Nat → Arena → Nat → Option Expr
  | 0, _, _ => none
  | fuel + 1, eb, i =>
    match eb.get? i with
    | some (.num v) => some (.num v)
    | some (.cellRef r c) => some (.cellRef r c)
    | some (.bop k l r) => do
      let le ← decodeExpr fuel eb l
      let re ← decodeExpr fuel eb r
      some (.bop k le re)
    | some (.uop p) => (decodeExpr fuel eb p).map .neg
    | none => none

/-- `move_expr_in_dir` on the arena: structurally copy the subtree at
`root`, shifting every cell-reference leaf one step in `dir`; number
leaves are shared, all other nodes are freshly allocated after their
children. -/
def move_expr_in_dir (fuel : Nat) (eb : Arena) (root : Nat) (dir : Dir) :
    Option (Nat × Arena) :=
  match fuel with
  | 0 => none
  | fuel + 1 =>
    match eb.get? root with
    | some (.num _) => some (root, eb)
    | some (.cellRef r c) =>
      let j := nbor_in_dir ⟨r, c⟩ dir
      let (i, eb) := expr_buffer_alloc eb (.cellRef j.row j.col)
      some (i, eb)
    | some (.bop k l r) => do
      let (l', eb) ← move_expr_in_dir fuel eb l dir
      let (r', eb) ← move_expr_in_dir fuel eb r dir
      let (i, eb) := expr_buffer_alloc eb (.bop k l' r')
      some (i, eb)
    | some (.uop p) => do
      let (p', eb) ← move_expr_in_dir fuel eb p dir
      let (i, eb) := expr_buffer_alloc eb (.uop p')
      some (i, eb)
    | none => none

/-- `move_expr_in_dir` on decoded trees: what the arena copy denotes. -/
def moveExprT : Expr → Dir → Expr
  | .num v, _ => .num v
  | .cellRef r c, d =>
    let j := nbor_in_dir ⟨r, c⟩ d
    .cellRef j.row j.col
  | .bop k l r, d => .bop k (moveExprT l d) (moveExprT r d)
  | .neg e, d => .neg (moveExprT e d)

/-- `sv_chop_by_delim`: the chunk before the first delimiter (the whole
string when there is none) and the remaining source after it. -/
def sv_chop_by_delim (s : List Char) (d : Char) : List Char × List Char :=
  let pre := s.takeWhile (fun c => !(c = d))
  match s.dropWhile (fun c => !(c = d)) with
  | [] => (s, [])
  | _ :: tail => (pre, tail)

/-- The inner loop of `estimate_table_size`: count `|`-chops until the
line is exhausted. -/
def countCols : Nat → List Char → Nat
  | 0, _ => 0
  | fuel + 1, line =>
    if line.isEmpty then 0
    else
      let (_, rest) := sv_chop_by_delim line ('|')
      countCols fuel rest + 1

/-- The outer loop of `estimate_table_size`: count lines and take the
maximum field count over them. -/
def estimateSizeLoop : Nat → List Char → Nat × Nat
  | 0, _ => (0, 0)
  | fuel + 1, content =>
    if content.isEmpty then (0, 0)
    else
      let (line, rest) := sv_chop_by_delim content ('\n')
      let c := countCols (line.length + 1) line
      let (r, c') := estimateSizeLoop fuel rest
      (r + 1, max c c')

/-- `estimate_table_size`. -/
def estimate_table_size (content : List Char) : Nat × Nat :=
  estimateSizeLoop (content.length + 1) content

/-- The payload of a parsed cell (`Cell_As` plus the tag), before
evaluation; expressions are arena handles at this stage. -/
inductive PPayload
  | text (s : List Char)
  | num (v : ℚ)
  | expr (idx : Nat)
  | clone (d : Dir)
deriving DecidableEq, Repr

/-- Classify one trimmed field, as in `parse_table_from_content`:
`=` marks an expression (parsed, then checked for trailing tokens),
`:` a clone direction, otherwise a full-field `strtod` decides between
number and text. -/
def classifyField (pf : Nat) (eb : Arena) (fld : List Char) :
    Except Err (PPayload × Arena) :=
  if fld.take 1 = [('=')] then do
    let body := fld.drop 1
    let (i, eb, src) ← parse_expr pf body eb
    let _ ← lexer_expect_no_tokens src
    .ok (.expr i, eb)
  else if fld.take 1 = [(':')] then
    let body := fld.drop 1
    if body = [('<')] then .ok (.clone .left, eb)
    else if body = [('>')] then .ok (.clone .right, eb)
    else if body = [('^')] then .ok (.clone .up, eb)
    else if body = [('v')] then .ok (.clone .down, eb)
    else .error .invalidCloneDir
  else
    match sv_strtod fld with
    | some v => .ok (.num v, eb)
    | none => .ok (.text fld, eb)

/-- The column loop of `parse_table_from_content` for one line: chop a
field per column, trim it, classify it. -/
def parseRowCells (pf : Nat) : Nat → Arena → List Char → Except Err (List PPayload × Arena)
  | 0, eb, _ => .ok ([], eb)
  | n + 1, eb, line => do
    let (fldRaw, line') := sv_chop_by_delim line ('|')
    let fld := sv_trim fldRaw
    let (p, eb) ← classifyField pf eb fld
    let (ps, eb) ← parseRowCells pf n eb line'
    .ok (p :: ps, eb)

/-- The row loop of `parse_table_from_content`: chop a line per row
(short/missing lines yield empty trailing text cells). -/
def parseTableRows (pf : Nat) (cols : Nat) : Nat → Arena → List Char →
    Except Err (List PPayload × Arena)
  | 0, eb, _ => .ok ([], eb)
  | r + 1, eb, content => do
    let (line, content') := sv_chop_by_delim content ('\n')
    let (row, eb) ← parseRowCells pf cols eb line
    let (rest, eb) ← parseTableRows pf cols r eb content'
    .ok (row ++ rest, eb)

/-- `parse_table_from_content` together with the pre-scan of `main`:
compute the extents, then parse every cell row-major into a flat list
plus the expression arena.  `pf` is the parser fuel. -/
def parse_table_from_content (pf : Nat) (content : List Char) :
    Except Err (Nat × Nat × List PPayload × Arena) := do
  let (rows, cols) := estimate_table_size content
  let (cells, eb) ← parseTableRows pf cols rows [] content
  .ok (rows, cols, cells, eb)

/-- `Eval_Status`: the three-state per-cell marker. -/
inductive Status
  | unevaluated | inprogress | evaluated
deriving DecidableEq, Repr

/-- A cell payload during evaluation: expression cells carry their
decoded tree together with the cached `value` field of `Cell_Expr`. -/
inductive EPayload
  | text (s : List Char)
  | num (v : ℚ)
  | expr (e : Expr) (value : ℚ)
  | clone (d : Dir)
deriving DecidableEq, Repr

/-- A `Cell`: tagged payload plus evaluation status. -/
structure ECell where
  pay : EPayload
  status : Status
deriving DecidableEq, Repr

/-- A `Table`: a row-major flat list of cells with its extents. -/
structure ETable where
  rows : Nat
  cols : Nat
  cells : List ECell
deriving DecidableEq, Repr

/-- `table_cell_at`: the bounds assertions become an error result; an
out-of-extent index is never dereferenced. -/
def table_cell_at (t : ETable) (i : CellIndex) : Except Err ECell :=
  if i.row < t.rows ∧ i.col < t.cols then
    match t.cells.get? (i.row * t.cols + i.col) with
    | some c => .ok c
    | none => .error .bounds
  else .error .bounds

/-- Write the cell at an index (the in-place mutation through the
pointer returned by `table_cell_at`). -/
def setCell (t : ETable) (i : CellIndex) (c : ECell) : ETable :=
  { t with cells := t.cells.set (i.row * t.cols + i.col) c }

/-- `bin_pow`: exponentiation by repeated squaring with a C `int`
exponent.  The C recursion does not terminate for negative exponents, so
the model takes fuel; `none` is the diverging case. -/
def bin_pow : Nat → ℚ → ℤ → Option ℚ
  | 0, _, _ => none
  | fuel + 1, num, n =>
    if n = 0 then some 1
    else if n % 2 = 0 then (bin_pow fuel num (n / 2)).map (fun tmp => tmp * tmp)
    else (bin_pow fuel num (n - 1)).map (fun tmp => num * tmp)

/-- The C cast `(int) x` applied to the power operator's right operand:
truncation toward zero. -/
def ratTrunc (q : ℚ) : ℤ := if q < 0 then -(⌊-q⌋) else ⌊q⌋

/-- The body of `table_eval_expr`, abstracted over the function used to
evaluate referenced cells, and structurally recursive on the tree:
evaluate a tree, triggering a cell evaluation on every cell reference
(the dependency edge of the whole graph) and reading the referenced
cell's resolved value afterwards.  `fuel` only feeds `bin_pow`. -/
def evalExprBody (fuel : Nat)
    (evalC : ETable → CellIndex → Except Err ETable) :
    ETable → Expr → Except Err (ℚ × ETable)
  | t, .num v => .ok (v, t)
  | t, .cellRef r c => do
    let t1 ← evalC t ⟨r, c⟩
    let tc ← table_cell_at t1 ⟨r, c⟩
    match tc.pay with
    | .num v => .ok (v, t1)
    | .text _ => .error .typeText
    | .expr _ v => .ok (v, t1)
    | .clone _ => .error .cloneEvaluated
  | t, .bop k l r => do
    let (lv, t1) ← evalExprBody fuel evalC t l
    let (rv, t2) ← evalExprBody fuel evalC t1 r
    match k with
    | .plus => .ok (lv + rv, t2)
    | .minus => .ok (lv - rv, t2)
    | .mult => .ok (lv * rv, t2)
    | .div => .ok (lv / rv, t2)
    | .pow =>
      match bin_pow fuel lv (ratTrunc rv) with
      | some v => .ok (v, t2)
      | none => .error .fuel
  | t, .neg e => do
    let (v, t1) ← evalExprBody fuel evalC t e
    .ok (-v, t1)

/-- `table_eval_cell`: the per-cell state machine.  Text and number
cells are marked evaluated immediately; expression cells detect an
in-progress re-entry as a cycle, otherwise evaluate their tree and cache
the value; clone cells resolve their neighbor, copy its resolved payload
and, when that payload is an expression, re-base a translated copy of
the tree and evaluate it. -/
def table_eval_cell : Nat → ETable → CellIndex → Except Err ETable
  | 0, _, _ => .error .fuel
  | fuel + 1, t, i => do
    let c ← table_cell_at t i
    match c.pay with
    | .text _ => .ok (setCell t i { c with status := .evaluated })
    | .num _ => .ok (setCell t i { c with status := .evaluated })
    | .expr e _ =>
      match c.status with
      | .inprogress => .error .cycle
      | .evaluated => .ok t
      | .unevaluated => do
        let t1 := setCell t i { c with status := .inprogress }
        let (v, t2) ← evalExprBody fuel (fun t' j => table_eval_cell fuel t' j) t1 e
        let c2 ← table_cell_at t2 i
        let pay2 := match c2.pay with
          | .expr e2 _ => EPayload.expr e2 v
          | p => p
        .ok (setCell t2 i { pay := pay2, status := .evaluated })
    | .clone d =>
      match c.status with
      | .inprogress => .error .cycle
      | .evaluated => .error .cloneEvaluated
      | .unevaluated => do
        let t1 := setCell t i { c with status := .inprogress }
        let j := nbor_in_dir i d
        if t1.rows ≤ j.row ∨ t1.cols ≤ j.col then .error .cloneBounds
        else do
          let t2 ← table_eval_cell fuel t1 j
          let nb ← table_cell_at t2 j
          match nb.pay with
          | .expr e v0 => do
            let e' := moveExprT e (opposite_dir d)
            let t3 := setCell t2 i { pay := .expr e' v0, status := .inprogress }
            let (v, t4) ← evalExprBody fuel (fun t' j' => table_eval_cell fuel t' j') t3 e'
            let c2 ← table_cell_at t4 i
            let pay2 := match c2.pay with
              | .expr e2 _ => EPayload.expr e2 v
              | p => p
            .ok (setCell t4 i { pay := pay2, status := .evaluated })
          | p => .ok (setCell t2 i { pay := p, status := .evaluated })

/-- `table_eval_expr` with explicit fuel for the cell evaluations it
triggers. -/
def table_eval_expr (fuel : Nat) (t : ETable) (e : Expr) : Except Err (ℚ × ETable) :=
  evalExprBody fuel (fun t' j => table_eval_cell fuel t' j) t e

/-- Evaluate the cells of a table in the given visit order (the
top-level driver of `main` uses the row-major order below). -/
def runOrder (fuel : Nat) : List CellIndex → ETable → Except Err ETable
  | [], t => .ok t
  | i :: rest, t => do
    let t1 ← table_eval_cell fuel t i
    runOrder fuel rest t1

/-- The row-major visit order of the driver loop in `main`. -/
def rowMajorOrder (rows cols : Nat) : List CellIndex :=
  (List.range rows).flatMap fun r => (List.range cols).map fun c => ⟨r, c⟩

/-- Decode a parsed payload into an evaluation payload; the cached value
of an expression cell starts at the `memset` zero. -/
def decodePayload (eb : Arena) : PPayload → Option EPayload
  | .text s => some (.text s)
  | .num v => some (.num v)
  | .expr i => (decodeExpr (i + 1) eb i).map (fun e => .expr e 0)
  | .clone d => some (.clone d)

/-- Build the initial evaluation table from raw content: estimate the
extents, parse every field, decode the expression handles into trees;
every cell starts `unevaluated`. -/
def mkTable (pf : Nat) (content : List Char) : Except Err ETable := do
  let (rows, cols, pcells, eb) ← parse_table_from_content pf content
  match pcells.mapM (decodePayload eb) with
  | some pays =>
    .ok { rows := rows, cols := cols,
          cells := pays.map (fun p => { pay := p, status := .unevaluated }) }
  | none => .error .fuel

/-- The whole pipeline of `main` on one input: build the table, then
evaluate every cell in row-major order. -/
def evalFile (pf ef : Nat) (content : List Char) : Except Err ETable := do
  let t ← mkTable pf content
  runOrder ef (rowMajorOrder t.rows t.cols) t

/-- The resolved value of a cell after evaluation: the literal of a
number cell or the cached value of an expression cell. -/
def resolvedValue (t : ETable) (i : CellIndex) : Option ℚ :=
  match table_cell_at t i with
  | .ok c =>
    match c.pay with
    | .num v => some v
    | .expr _ v => some v
    | _ => none
  | .error _ => none

/-- Convenience wrapper: run the pipeline on a string with fuel derived
from its size, and read off one cell's resolved value. -/
def fileCellValue (content : String) (i : CellIndex) : Option ℚ :=
  let cs := content.toList
  match evalFile (4 * cs.length + 16) (4 * cs.length + 16) cs with
  | .ok t => resolvedValue t i
  | .error _ => none

/-- Convenience wrapper: run the pipeline and read off one cell's whole
resolved payload (tag, tree and cached value). -/
def fileCellPay (content : String) (i : CellIndex) : Option EPayload :=
  let cs := content.toList
  match evalFile (4 * cs.length + 16) (4 * cs.length + 16) cs with
  | .ok t =>
    match table_cell_at t i with
    | .ok c => some c.pay
    | .error _ => none
  | .error _ => none

/-- Parse a formula in isolation and decode the resulting arena handle
into a tree (used to state facts about the shape the parser builds). -/
def parseTreeOf (src : List Char) : Option Expr :=
  match parse_expr (4 * src.length + 16) src [] with
  | .ok (root, eb, _) => decodeExpr (root + 1) eb root
  | .error _ => none

mutual

/-- The pure denotation of a cell of the *initial* table: the resolved
payload its evaluation must produce, defined by recursion on fuel only
(no state).  It mirrors `table_eval_cell` case by case: text and number
payloads resolve to themselves, an expression payload resolves to its
tree paired with that tree's value, and a clone payload resolves to its
neighbor's resolved payload, translating the tree (and re-evaluating it)
when that payload is an expression. -/
def denoteCell (fuel : Nat) (t0 : ETable) (i : CellIndex) : Except Err EPayload :=
  match fuel with
  | 0 => .error .fuel
  | fuel' + 1 => do
    let c ← table_cell_at t0 i
    match c.pay with
    | .text s => .ok (.text s)
    | .num v => .ok (.num v)
    | .expr e _ => do
      let v ← denoteExpr fuel' t0 e
      .ok (.expr e v)
    | .clone d =>
      let j := nbor_in_dir i d
      if t0.rows ≤ j.row ∨ t0.cols ≤ j.col then .error .cloneBounds
      else do
        let p ← denoteCell fuel' t0 j
        match p with
        | .expr e _ => do
          let v ← denoteExpr fuel' t0 (moveExprT e (opposite_dir d))
          .ok (.expr (moveExprT e (opposite_dir d)) v)
        | p' => .ok p'
termination_by (fuel, 0)

/-- The pure denotation of an expression tree over the initial table:
the value `table_eval_expr` must produce for it. -/
def denoteExpr (fuel : Nat) (t0 : ETable) (e : Expr) : Except Err ℚ :=
  match e with
  | .num v => .ok v
  | .cellRef r c => do
    let p ← denoteCell fuel t0 ⟨r, c⟩
    match p with
    | .num v => .ok v
    | .text _ => .error .typeText
    | .expr _ v => .ok v
    | .clone _ => .error .cloneEvaluated
  | .bop k l r => do
    let lv ← denoteExpr fuel t0 l
    let rv ← denoteExpr fuel t0 r
    match k with
    | .plus => .ok (lv + rv)
    | .minus => .ok (lv - rv)
    | .mult => .ok (lv * rv)
    | .div => .ok (lv / rv)
    | .pow =>
      match bin_pow fuel lv (ratTrunc rv) with
      | some v => .ok v
      | none => .error .fuel
  | .neg e' => do
    let v ← denoteExpr fuel t0 e'
    .ok (-v)
termination_by (fuel, 1 + sizeOf e)

end

/-- The resolved payload a cell must end with: some fuel makes the
denotation produce it. -/
def PayRes (t0 : ETable) (i : CellIndex) (p : EPayload) : Prop :=
  ∃ f, denoteCell f t0 i = .ok p

/-- Every cell of the table is still unevaluated (the state right after
parsing). -/
def AllUnevaluated (t : ETable) : Prop := ∀ c ∈ t.cells, c.status = .unevaluated

/-- The C6 invariant: no cell is `evaluated` while still tagged as a
clone. -/
def NoEvaluatedClone (t : ETable) : Prop :=
  ∀ i c, table_cell_at t i = .ok c → c.status = .evaluated → ∀ d, c.pay ≠ .clone d

/-- The states reachable from `t0` by any sequence of successful
`table_eval_cell` calls (an errored call terminates the C process, so it
produces no state). -/
inductive Reaches (t0 : ETable) : ETable → Prop
  | refl : Reaches t0 t0
  | step {t t' : ETable} (fuel : Nat) (i : CellIndex) :
      Reaches t0 t → table_eval_cell fuel t i = .ok t' → Reaches t0 t'

/-- A payload whose cell the evaluator may hold `inprogress`. -/
def payExprClone : EPayload → Bool
  | .expr _ _ => true
  | .clone _ => true
  | _ => false

/-- A cell that no nested evaluation may modify: either fully evaluated,
or on the evaluation stack (`inprogress`) with an expression or clone
payload, so that re-entering it raises a cycle error instead of writing. -/
def Pinned (c : ECell) : Prop :=
  c.status = .evaluated ∨ (c.status = .inprogress ∧ payExprClone c.pay = true)

/-- Coherence of an intermediate evaluation state `t` with the initial
table `t0`: same extents, and every cell is untouched while
`unevaluated`, unconstrained while `inprogress`, and carries exactly its
denotation once `evaluated`. -/
def Coh (t0 t : ETable) : Prop :=
  t.rows = t0.rows ∧ t.cols = t0.cols ∧ t.cells.length = t0.cells.length ∧
  ∀ i c, table_cell_at t i = .ok c →
    (c.status = .unevaluated → ∃ c0, table_cell_at t0 i = .ok c0 ∧ c0.pay = c.pay) ∧
    (c.status = .evaluated → PayRes t0 i c.pay) ∧
    (c.status = .inprogress → payExprClone c.pay = true)

/-- How the resolved payload of a `:>` clone relates to the resolved
payload of its right-hand neighbor: text and number payloads are copied
verbatim; an expression payload keeps the neighbor's tag but holds the
neighbor's tree translated one column to the left, re-evaluated over the
initial table. -/
def cloneRightRel (t0 : ETable) (pc pn : EPayload) : Prop :=
  match pn with
  | .expr e _ => ∃ v', pc = .expr (moveExprT e .left) v' ∧
      ∃ f, denoteExpr f t0 (moveExprT e .left) = .ok v'
  | p => pc = p

/-- The child-handle constraint of one arena node: binary and unary
nodes point strictly below their own handle. -/
def nodeChildrenLt (n : Node) (i : Nat) : Prop :=
  match n with
  | .num _ => True
  | .cellRef _ _ => True
  | .bop _ l r => l < i ∧ r < i
  | .uop p => p < i

/-- The arena invariant: every node's children sit strictly below it, so
every handle roots a finite acyclic tree. -/
def ArenaInv (eb : Arena) : Prop :=
  ∀ i n, eb.get? i = some n → nodeChildrenLt n i

/-- The parsed table of the grid `0|0` / `=B1|=A1` (two mutually
referential expression cells in row 1). -/
def mutualRefTable : ETable :=
  { rows := 2, cols := 2,
    cells := [
      { pay := .num 0, status := .unevaluated },
      { pay := .num 0, status := .unevaluated },
      { pay := .expr (.cellRef 1 1) 0, status := .unevaluated },
      { pay := .expr (.cellRef 1 0) 0, status := .unevaluated }] }

/-- The parsed table of the grid `x|:>|=C1` / `10|20|30` (a `:>` clone
whose right-hand neighbor is an expression cell). -/
def cloneDemoTable : ETable :=
  { rows := 2, cols := 3,
    cells := [
      { pay := .text [('x')], status := .unevaluated },
      { pay := .clone .right, status := .unevaluated },
      { pay := .expr (.cellRef 1 2) 0, status := .unevaluated },
      { pay := .num 10, status := .unevaluated },
      { pay := .num 20, status := .unevaluated },
      { pay := .num 30, status := .unevaluated }] }

/-- `cloneDemoTable` after evaluating the clone cell at row 0, col 1:
the clone has been rewritten to an expression cell holding the
translated tree `B1` with value 20. -/
def cloneDemoStep : ETable :=
  { rows := 2, cols := 3,
    cells := [
      { pay := .text [('x')], status := .unevaluated },
      { pay := .expr (.cellRef 1 1) 20, status := .evaluated },
      { pay := .expr (.cellRef 1 2) 30, status := .evaluated },
      { pay := .num 10, status := .unevaluated },
      { pay := .num 20, status := .evaluated },
      { pay := .num 30, status := .evaluated }] }

/-- `cloneDemoTable` after evaluating the number cell at row 1, col 0. -/
def numDemoStep : ETable :=
  { rows := 2, cols := 3,
    cells := [
      { pay := .text [('x')], status := .unevaluated },
      { pay := .clone .right, status := .unevaluated },
      { pay := .expr (.cellRef 1 2) 0, status := .unevaluated },
      { pay := .num 10, status := .evaluated },
      { pay := .num 20, status := .unevaluated },
      { pay := .num 30, status := .unevaluated }] }

/-- `cloneDemoTable` after a full evaluation run (every cell
evaluated). -/
def cloneDemoFull : ETable :=
  { rows := 2, cols := 3,
    cells := [
      { pay := .text [('x')], status := .evaluated },
      { pay := .expr (.cellRef 1 1) 20, status := .evaluated },
      { pay := .expr (.cellRef 1 2) 30, status := .evaluated },
      { pay := .num 10, status := .evaluated },
      { pay := .num 20, status := .evaluated },
      { pay := .num 30, status := .evaluated }] }

/-- The parsed table of the grid `=B0|2` / `3|4`. -/
def orderDemoTable : ETable :=
  { rows := 2, cols := 2,
    cells := [
      { pay := .expr (.cellRef 0 1) 0, status := .unevaluated },
      { pay := .num 2, status := .unevaluated },
      { pay := .num 3, status := .unevaluated },
      { pay := .num 4, status := .unevaluated }] }

/-- `orderDemoTable` fully evaluated (the same final state for every
visit order). -/
def orderDemoFinal : ETable :=
  { rows := 2, cols := 2,
    cells := [
      { pay := .expr (.cellRef 0 1) 2, status := .evaluated },
      { pay := .num 2, status := .evaluated },
      { pay := .num 3, status := .evaluated },
      { pay := .num 4, status := .evaluated }] }

/-- The ASCII digit character of a decimal digit. -/
def dchar (d : Fin 10) : Char := Char.ofNat (48 + d.val)

/-! ### Basic plumbing lemmas -/

@[simp]
theorem except_bind_ok {α β : Type} {x : Except Err α} {g : α → Except Err β} {b : β} :
    (x >>= g) = .ok b ↔ ∃ a, x = .ok a ∧ g a = .ok b := by
  cases x <;> simp [Bind.bind, Except.bind]

theorem except_bind_error {α β : Type} {x : Except Err α} {g : α → Except Err β} {ε : Err} :
    (x >>= g) = .error ε ↔ x = .error ε ∨ ∃ a, x = .ok a ∧ g a = .error ε := by
  cases x <;> simp [Bind.bind, Except.bind]

theorem list_set_get?_self {α : Type} (l : List α) (n : Nat) (a : α)
    (h : l.get? n = some a) : l.set n a = l := by
  induction l generalizing n with
  | nil => simp at h
  | cons x xs ih =>
    cases n with
    | zero => simp at h; simp [h]
    | succ m =>
      have h' : xs.get? m = some a := h
      simp [List.set, ih m h']

theorem table_cell_at_ok {t : ETable} {i : CellIndex} {c : ECell} :
    table_cell_at t i = .ok c ↔
      (i.row < t.rows ∧ i.col < t.cols ∧
        t.cells.get? (i.row * t.cols + i.col) = some c) := by
  unfold table_cell_at
  split
  · rename_i hv
    cases hg : t.cells.get? (i.row * t.cols + i.col) with
    | some c' => simp [hg, hv.1, hv.2, And.comm]
    | none => simp [hg, hv.1, hv.2]
  · rename_i hv
    constructor
    · intro h; cases h
    · intro h; exact absurd ⟨h.1, h.2.1⟩ hv

theorem flat_inj {cols : Nat} {i j : CellIndex} (hi : i.col < cols) (hj : j.col < cols)
    (h : i.row * cols + i.col = j.row * cols + j.col) : i = j := by
  have hr : i.row = j.row := by
    rcases Nat.lt_trichotomy i.row j.row with hlt | heq | hgt
    · exfalso
      have h1 : i.row * cols + i.col < (i.row + 1) * cols := by
        simp [Nat.succ_mul]; omega
      have h2 : (i.row + 1) * cols ≤ j.row * cols :=
        Nat.mul_le_mul_right _ hlt
      omega
    · exact heq
    · exfalso
      have h1 : j.row * cols + j.col < (j.row + 1) * cols := by
        simp [Nat.succ_mul]; omega
      have h2 : (j.row + 1) * cols ≤ i.row * cols :=
        Nat.mul_le_mul_right _ hgt
      omega
  have hc : i.col = j.col := by rw [hr] at h; omega
  cases i; cases j
  simp only [CellIndex.mk.injEq]
  simp at hr hc
  exact ⟨hr, hc⟩

@[simp] theorem setCell_rows (t : ETable) (i : CellIndex) (c : ECell) :
    (setCell t i c).rows = t.rows := rfl

@[simp] theorem setCell_cols (t : ETable) (i : CellIndex) (c : ECell) :
    (setCell t i c).cols = t.cols := rfl

@[simp] theorem setCell_cells_length (t : ETable) (i : CellIndex) (c : ECell) :
    (setCell t i c).cells.length = t.cells.length := by
  simp [setCell]

theorem cellAt_set_self {t : ETable} {i : CellIndex} {c0 : ECell} (c : ECell)
    (h : table_cell_at t i = .ok c0) :
    table_cell_at (setCell t i c) i = .ok c := by
  rw [table_cell_at_ok] at h ⊢
  obtain ⟨h1, h2, h3⟩ := h
  have hlen : i.row * t.cols + i.col < t.cells.length :=
    (List.get?_eq_some.mp h3).1
  exact ⟨h1, h2, by simp [setCell, List.get?_set_eq_of_lt, hlen]⟩

theorem cellAt_set_ne {t : ETable} {i : CellIndex} (j : CellIndex) (c : ECell)
    (hi : i.row < t.rows ∧ i.col < t.cols) (hne : j ≠ i) :
    table_cell_at (setCell t i c) j = table_cell_at t j := by
  by_cases hj : j.row < t.rows ∧ j.col < t.cols
  · have hflat : j.row * t.cols + j.col ≠ i.row * t.cols + i.col := by
      intro hEq
      exact hne (flat_inj hj.2 hi.2 hEq)
    unfold table_cell_at
    simp only [setCell]
    rw [List.get?_set_ne _ _ (fun h => hflat h.symm)]
  · unfold table_cell_at
    simp only [setCell]
    rw [if_neg (by exact fun h => hj ⟨h.1, h.2⟩), if_neg (by exact fun h => hj ⟨h.1, h.2⟩)]

theorem setCell_self_id {t : ETable} {i : CellIndex} {c : ECell}
    (h : table_cell_at t i = .ok c) : setCell t i c = t := by
  rw [table_cell_at_ok] at h
  cases t with
  | mk rows cols cells =>
    simp [setCell]
    exact list_set_get?_self _ _ _ h.2.2

theorem mem_rowMajorOrder {rows cols : Nat} {i : CellIndex}
    (h1 : i.row < rows) (h2 : i.col < cols) : i ∈ rowMajorOrder rows cols := by
  unfold rowMajorOrder
  rw [List.mem_flatMap]
  exact ⟨i.row, List.mem_range.mpr h1,
    List.mem_map.mpr ⟨i.col, List.mem_range.mpr h2, by cases i; rfl⟩⟩

/-! ### Fuel monotonicity of `bin_pow` and of the denotation -/

theorem bin_pow_mono {f : Nat} {q : ℚ} {n : ℤ} {v : ℚ}
    (h : bin_pow f q n = some v) : bin_pow (f + 1) q n = some v := by
  induction f generalizing n v with
  | zero => simp [bin_pow] at h
  | succ f ih =>
    by_cases h0 : n = 0
    · simp [bin_pow, h0] at h ⊢; exact h
    · by_cases h2 : n % 2 = 0
      · simp only [bin_pow, h0, h2, if_false, if_true, Option.map_eq_some'] at h ⊢
        obtain ⟨w, hw, hv⟩ := h
        exact ⟨w, ih hw, hv⟩
      · simp only [bin_pow, h0, h2, if_false, Option.map_eq_some'] at h ⊢
        obtain ⟨w, hw, hv⟩ := h
        exact ⟨w, ih hw, hv⟩

theorem bin_pow_mono_le {f f' : Nat} {q : ℚ} {n : ℤ} {v : ℚ} (hle : f ≤ f')
    (h : bin_pow f q n = some v) : bin_pow f' q n = some v := by
  induction f' with
  | zero =>
    have hf : f = 0 := by omega
    subst hf; exact h
  | succ f' ih =>
    rcases Nat.lt_or_ge f (f' + 1) with hlt | hge
    · exact bin_pow_mono (ih (by omega))
    · have hf : f = f' + 1 := by omega
      subst hf; exact h

@[simp] theorem except_ok_bind {α β : Type} (a : α) (g : α → Except Err β) :
    ((Except.ok a : Except Err α) >>= g) = g a := rfl

@[simp] theorem except_error_bind {α β : Type} (ε : Err) (g : α → Except Err β) :
    ((Except.error ε : Except Err α) >>= g) = .error ε := rfl

theorem denoteExpr_mono_step (t0 : ETable) (f : Nat)
    (ihC : ∀ i p, denoteCell f t0 i = .ok p → denoteCell (f + 1) t0 i = .ok p) :
    ∀ e v, denoteExpr f t0 e = .ok v → denoteExpr (f + 1) t0 e = .ok v := by
  intro e
  induction e with
  | num w => intro v h; unfold denoteExpr at h ⊢; exact h
  | cellRef r c =>
    intro v h
    unfold denoteExpr at h ⊢
    rw [except_bind_ok] at h ⊢
    obtain ⟨p, hp, h⟩ := h
    exact ⟨p, ihC _ _ hp, h⟩
  | bop k l r ihl ihr =>
    intro v h
    unfold denoteExpr at h ⊢
    rw [except_bind_ok] at h ⊢
    obtain ⟨lv, hl, h⟩ := h
    refine ⟨lv, ihl _ hl, ?_⟩
    rw [except_bind_ok] at h ⊢
    obtain ⟨rv, hr, h⟩ := h
    refine ⟨rv, ihr _ hr, ?_⟩
    cases k with
    | pow =>
      cases hb : bin_pow f lv (ratTrunc rv) with
      | none => rw [hb] at h; cases h
      | some w =>
        rw [hb] at h
        rw [bin_pow_mono hb]
        exact h
    | plus => exact h
    | minus => exact h
    | mult => exact h
    | div => exact h
  | neg e' ih =>
    intro v h
    unfold denoteExpr at h ⊢
    rw [except_bind_ok] at h ⊢
    obtain ⟨w, hw, h⟩ := h
    exact ⟨w, ih _ hw, h⟩

theorem denoteCell_mono_step (t0 : ETable) :
    ∀ f i p, denoteCell f t0 i = .ok p → denoteCell (f + 1) t0 i = .ok p := by
  intro f
  induction f with
  | zero => intro i p h; simp [denoteCell] at h
  | succ f ih =>
    intro i p h
    have ihE := denoteExpr_mono_step t0 f ih
    unfold denoteCell at h ⊢
    rw [except_bind_ok] at h ⊢
    obtain ⟨c, hc, h⟩ := h
    refine ⟨c, hc, ?_⟩
    cases hpay : c.pay with
    | text s => rw [hpay] at h; exact h
    | num v => rw [hpay] at h; exact h
    | expr e v0 =>
      rw [hpay] at h
      dsimp only at h ⊢
      rw [except_bind_ok] at h ⊢
      obtain ⟨w, hw, h⟩ := h
      exact ⟨w, ihE _ _ hw, h⟩
    | clone d =>
      rw [hpay] at h
      dsimp only at h ⊢
      split at h
      · cases h
      · rename_i hbnd
        rw [except_bind_ok] at h
        obtain ⟨p', hp', h⟩ := h
        rw [if_neg hbnd]
        rw [except_bind_ok]
        refine ⟨p', ih _ _ hp', ?_⟩
        cases hp2 : p' with
        | text s => rw [hp2] at h; exact h
        | num v => rw [hp2] at h; exact h
        | clone d2 => rw [hp2] at h; exact h
        | expr e v0 =>
          rw [hp2] at h
          dsimp only at h ⊢
          rw [except_bind_ok] at h ⊢
          obtain ⟨w, hw, h⟩ := h
          exact ⟨w, ihE _ _ hw, h⟩

theorem denoteCell_mono_le {t0 : ETable} {f f' : Nat} {i : CellIndex} {p : EPayload}
    (hle : f ≤ f') (h : denoteCell f t0 i = .ok p) : denoteCell f' t0 i = .ok p := by
  induction f' with
  | zero =>
    have hf : f = 0 := by omega
    subst hf; exact h
  | succ f' ih =>
    rcases Nat.lt_or_ge f (f' + 1) with hlt | hge
    · exact denoteCell_mono_step t0 f' i p (ih (by omega))
    · have hf : f = f' + 1 := by omega
      subst hf; exact h

theorem denoteExpr_mono_le {t0 : ETable} {f f' : Nat} {e : Expr} {v : ℚ}
    (hle : f ≤ f') (h : denoteExpr f t0 e = .ok v) : denoteExpr f' t0 e = .ok v := by
  induction f' with
  | zero =>
    have hf : f = 0 := by omega
    subst hf; exact h
  | succ f' ih =>
    rcases Nat.lt_or_ge f (f' + 1) with hlt | hge
    · exact denoteExpr_mono_step t0 f' (fun i p => denoteCell_mono_step t0 f' i p) _ _
        (ih (by omega))
    · have hf : f = f' + 1 := by omega
      subst hf; exact h

/-- The denotation never resolves a cell to a clone payload (the heart
of the C6 invariant). -/
theorem denoteCell_not_clone {t0 : ETable} :
    ∀ f i p, denoteCell f t0 i = .ok p → ∀ d, p ≠ .clone d := by
  intro f
  induction f with
  | zero => intro i p h; simp [denoteCell] at h
  | succ f ih =>
    intro i p h
    unfold denoteCell at h
    rw [except_bind_ok] at h
    obtain ⟨c, hc, h⟩ := h
    cases hpay : c.pay with
    | text s => rw [hpay] at h; cases h; intro d hd; cases hd
    | num v => rw [hpay] at h; cases h; intro d hd; cases hd
    | expr e v0 =>
      rw [hpay] at h
      dsimp only at h
      rw [except_bind_ok] at h
      obtain ⟨w, _, h⟩ := h
      cases h; intro d hd; cases hd
    | clone d0 =>
      rw [hpay] at h
      dsimp only at h
      split at h
      · cases h
      · rw [except_bind_ok] at h
        obtain ⟨p', hp', h⟩ := h
        cases hp2 : p' with
        | text s => rw [hp2] at h; cases h; intro d hd; cases hd
        | num v => rw [hp2] at h; cases h; intro d hd; cases hd
        | clone d2 => exact absurd hp2 (ih _ _ hp' _)
        | expr e v0 =>
          rw [hp2] at h
          dsimp only at h
          rw [except_bind_ok] at h
          obtain ⟨w, _, h⟩ := h
          cases h; intro d hd; cases hd

/-! ### Shape preservation of the evaluator -/

theorem cellAt_ok_of_dims {t t' : ETable} {i : CellIndex} {c : ECell}
    (h : table_cell_at t i = .ok c) (hr : t'.rows = t.rows) (hc : t'.cols = t.cols)
    (hl : t'.cells.length = t.cells.length) : ∃ c', table_cell_at t' i = .ok c' := by
  rw [table_cell_at_ok] at h
  obtain ⟨h1, h2, h3⟩ := h
  have hlen : i.row * t.cols + i.col < t.cells.length := (List.get?_eq_some.mp h3).1
  have hlen' : i.row * t'.cols + i.col < t'.cells.length := by rw [hc, hl]; exact hlen
  exact ⟨t'.cells.get ⟨_, hlen'⟩, by
    rw [table_cell_at_ok]
    exact ⟨hr ▸ h1, hc ▸ h2, List.get?_eq_get hlen'⟩⟩

theorem evalExprBody_dims {fuel : Nat} {evalC : ETable → CellIndex → Except Err ETable}
    (hC : ∀ t i t', evalC t i = .ok t' →
      t'.rows = t.rows ∧ t'.cols = t.cols ∧ t'.cells.length = t.cells.length) :
    ∀ e t v t', evalExprBody fuel evalC t e = .ok (v, t') →
      t'.rows = t.rows ∧ t'.cols = t.cols ∧ t'.cells.length = t.cells.length := by
  intro e
  induction e with
  | num w =>
    intro t v t' h
    unfold evalExprBody at h
    cases h
    exact ⟨rfl, rfl, rfl⟩
  | cellRef r c =>
    intro t v t' h
    unfold evalExprBody at h
    rw [except_bind_ok] at h
    obtain ⟨t1, h1, h⟩ := h
    rw [except_bind_ok] at h
    obtain ⟨tc, h2, h⟩ := h
    cases hpay : tc.pay <;> rw [hpay] at h
    case text => cases h
    case num => cases h; exact hC _ _ _ h1
    case expr => cases h; exact hC _ _ _ h1
    case clone => cases h
  | bop k l r ihl ihr =>
    intro t v t' h
    unfold evalExprBody at h
    rw [except_bind_ok] at h
    obtain ⟨⟨lv, t1⟩, hl, h⟩ := h
    dsimp only at h
    rw [except_bind_ok] at h
    obtain ⟨⟨rv, t2⟩, hr, h⟩ := h
    dsimp only at h
    have d1 := ihl _ _ _ hl
    have d2 := ihr _ _ _ hr
    have dall : t2.rows = t.rows ∧ t2.cols = t.cols ∧ t2.cells.length = t.cells.length := by
      exact ⟨d2.1.trans d1.1, d2.2.1.trans d1.2.1, d2.2.2.trans d1.2.2⟩
    cases k <;> dsimp only at h
    case plus => cases h; exact dall
    case minus => cases h; exact dall
    case mult => cases h; exact dall
    case div => cases h; exact dall
    case pow =>
      cases hb : bin_pow fuel lv (ratTrunc rv) <;> rw [hb] at h
      · cases h
      · cases h; exact dall
  | neg e1 ih =>
    intro t v t' h
    unfold evalExprBody at h
    rw [except_bind_ok] at h
    obtain ⟨⟨w, t1⟩, hw, h⟩ := h
    dsimp only at h
    cases h
    exact ih _ _ _ hw

theorem table_eval_cell_dims :
    ∀ fuel t i t', table_eval_cell fuel t i = .ok t' →
      t'.rows = t.rows ∧ t'.cols = t.cols ∧ t'.cells.length = t.cells.length := by
  intro fuel
  induction fuel with
  | zero => intro t i t' h; cases h
  | succ fuel ih =>
    intro t i t' h
    unfold table_eval_cell at h
    rw [except_bind_ok] at h
    obtain ⟨c, hc, h⟩ := h
    cases hpay : c.pay <;> rw [hpay] at h
    case text => cases h; simp [setCell]
    case num => cases h; simp [setCell]
    case expr e v0 =>
      cases hst : c.status <;> rw [hst] at h
      case inprogress => cases h
      case evaluated => cases h; exact ⟨rfl, rfl, rfl⟩
      case unevaluated =>
        dsimp only at h
        rw [except_bind_ok] at h
        obtain ⟨⟨v, t2⟩, hE, h⟩ := h
        dsimp only at h
        rw [except_bind_ok] at h
        obtain ⟨c2, hc2, h⟩ := h
        cases h
        have dE := evalExprBody_dims (fun t i t' h => ih t i t' h) _ _ _ _ hE
        simp only [setCell_rows, setCell_cols, setCell_cells_length] at dE
        simp [setCell]
        exact ⟨dE.1, dE.2.1, dE.2.2⟩
    case clone d =>
      cases hst : c.status <;> rw [hst] at h
      case inprogress => cases h
      case evaluated => cases h
      case unevaluated =>
        dsimp only at h
        split at h
        · cases h
        · rw [except_bind_ok] at h
          obtain ⟨t2, h2, h⟩ := h
          rw [except_bind_ok] at h
          obtain ⟨nb, hnb, h⟩ := h
          have d2 := ih _ _ _ h2
          simp only [setCell_rows, setCell_cols, setCell_cells_length] at d2
          cases hnp : nb.pay <;> rw [hnp] at h
          case text =>
            cases h
            simp [setCell]
            exact ⟨d2.1, d2.2.1, d2.2.2⟩
          case num =>
            cases h
            simp [setCell]
            exact ⟨d2.1, d2.2.1, d2.2.2⟩
          case clone =>
            cases h
            simp [setCell]
            exact ⟨d2.1, d2.2.1, d2.2.2⟩
          case expr e v0 =>
            dsimp only at h
            rw [except_bind_ok] at h
            obtain ⟨⟨v, t4⟩, hE, h⟩ := h
            dsimp only at h
            rw [except_bind_ok] at h
            obtain ⟨c2, hc2, h⟩ := h
            cases h
            have dE := evalExprBody_dims (fun t i t' h => ih t i t' h) _ _ _ _ hE
            simp only [setCell_rows, setCell_cols, setCell_cells_length] at dE
            simp [setCell]
            exact ⟨dE.1.trans d2.1, dE.2.1.trans d2.2.1, dE.2.2.trans d2.2.2⟩

/-! ### Pinned cells are never modified -/

theorem cellAt_inj {t : ETable} {j : CellIndex} {c c' : ECell}
    (h1 : table_cell_at t j = .ok c) (h2 : table_cell_at t j = .ok c') : c = c' := by
  rw [h1] at h2; cases h2; rfl

theorem cellAt_valid {t : ETable} {i : CellIndex} {c : ECell}
    (h : table_cell_at t i = .ok c) : i.row < t.rows ∧ i.col < t.cols := by
  rw [table_cell_at_ok] at h; exact ⟨h.1, h.2.1⟩

theorem evalExprBody_pinned {fuel : Nat} {evalC : ETable → CellIndex → Except Err ETable}
    (hC : ∀ t i t', evalC t i = .ok t' →
      ∀ j c, table_cell_at t j = .ok c → Pinned c → table_cell_at t' j = .ok c) :
    ∀ e t v t', evalExprBody fuel evalC t e = .ok (v, t') →
      ∀ j c, table_cell_at t j = .ok c → Pinned c → table_cell_at t' j = .ok c := by
  intro e
  induction e with
  | num w =>
    intro t v t' h j c hcj hp
    unfold evalExprBody at h
    cases h
    exact hcj
  | cellRef r cc =>
    intro t v t' h j c hcj hp
    unfold evalExprBody at h
    rw [except_bind_ok] at h
    obtain ⟨t1, h1, h⟩ := h
    rw [except_bind_ok] at h
    obtain ⟨tc, h2, h⟩ := h
    cases hpay : tc.pay <;> rw [hpay] at h
    case text => cases h
    case num => cases h; exact hC _ _ _ h1 _ _ hcj hp
    case expr => cases h; exact hC _ _ _ h1 _ _ hcj hp
    case clone => cases h
  | bop k l r ihl ihr =>
    intro t v t' h j c hcj hp
    unfold evalExprBody at h
    rw [except_bind_ok] at h
    obtain ⟨⟨lv, t1⟩, hl, h⟩ := h
    dsimp only at h
    rw [except_bind_ok] at h
    obtain ⟨⟨rv, t2⟩, hr, h⟩ := h
    dsimp only at h
    have p1 := ihl _ _ _ hl _ _ hcj hp
    have p2 := ihr _ _ _ hr _ _ p1 hp
    cases k <;> dsimp only at h
    case plus => cases h; exact p2
    case minus => cases h; exact p2
    case mult => cases h; exact p2
    case div => cases h; exact p2
    case pow =>
      cases hb : bin_pow fuel lv (ratTrunc rv) <;> rw [hb] at h
      · cases h
      · cases h; exact p2
  | neg e1 ih =>
    intro t v t' h j c hcj hp
    unfold evalExprBody at h
    rw [except_bind_ok] at h
    obtain ⟨⟨w, t1⟩, hw, h⟩ := h
    dsimp only at h
    cases h
    exact ih _ _ _ hw _ _ hcj hp

theorem table_eval_cell_pinned :
    ∀ fuel t i t', table_eval_cell fuel t i = .ok t' →
      ∀ j c, table_cell_at t j = .ok c → Pinned c → table_cell_at t' j = .ok c := by
  intro fuel
  induction fuel with
  | zero => intro t i t' h; cases h
  | succ fuel ih =>
    intro t i t' h j c hcj hp
    unfold table_eval_cell at h
    rw [except_bind_ok] at h
    obtain ⟨ci, hci, h⟩ := h
    have hvalid : i.row < t.rows ∧ i.col < t.cols := cellAt_valid hci
    cases hpay : ci.pay <;> rw [hpay] at h
    case text s =>
      cases h
      by_cases hji : j = i
      · subst hji
        have hce : c = ci := cellAt_inj hcj hci
        subst hce
        rcases hp with hev | ⟨hip, hpc⟩
        · have hcell : ({ pay := EPayload.text s, status := Status.evaluated } : ECell) = c := by
            cases c; simp_all
          rw [hcell, setCell_self_id hcj]
          exact hcj
        · rw [hpay] at hpc; simp [payExprClone] at hpc
      · rw [cellAt_set_ne j _ hvalid hji]
        exact hcj
    case num v =>
      cases h
      by_cases hji : j = i
      · subst hji
        have hce : c = ci := cellAt_inj hcj hci
        subst hce
        rcases hp with hev | ⟨hip, hpc⟩
        · have hcell : ({ pay := EPayload.num v, status := Status.evaluated } : ECell) = c := by
            cases c; simp_all
          rw [hcell, setCell_self_id hcj]
          exact hcj
        · rw [hpay] at hpc; simp [payExprClone] at hpc
      · rw [cellAt_set_ne j _ hvalid hji]
        exact hcj
    case expr e v0 =>
      cases hst : ci.status <;> rw [hst] at h
      case inprogress => cases h
      case evaluated => cases h; exact hcj
      case unevaluated =>
        have hji : j ≠ i := by
          intro h'
          subst h'
          have hce : c = ci := cellAt_inj hcj hci
          subst hce
          rcases hp with hev | ⟨hip, _⟩
          · rw [hst] at hev; cases hev
          · rw [hst] at hip; cases hip
        dsimp only at h
        rw [except_bind_ok] at h
        obtain ⟨⟨v, t2⟩, hE, h⟩ := h
        dsimp only at h
        rw [except_bind_ok] at h
        obtain ⟨c2, hc2, h⟩ := h
        cases h
        have hstep1 : table_cell_at (setCell t i
            { pay := EPayload.expr e v0, status := Status.inprogress }) j
            = .ok c := by rw [cellAt_set_ne j _ hvalid hji]; exact hcj
        have hstep2 := evalExprBody_pinned (fun t i t' h => ih t i t' h) _ _ _ _ hE _ _ hstep1 hp
        have d2 := evalExprBody_dims (fun t i t' h => table_eval_cell_dims fuel t i t' h) _ _ _ _ hE
        simp only [setCell_rows, setCell_cols, setCell_cells_length] at d2
        have hvalid2 : i.row < t2.rows ∧ i.col < t2.cols := by
          rw [d2.1, d2.2.1]; exact hvalid
        rw [cellAt_set_ne j _ hvalid2 hji]
        exact hstep2
    case clone d =>
      cases hst : ci.status <;> rw [hst] at h
      case inprogress => cases h
      case evaluated => cases h
      case unevaluated =>
        have hji : j ≠ i := by
          intro h'
          subst h'
          have hce : c = ci := cellAt_inj hcj hci
          subst hce
          rcases hp with hev | ⟨hip, _⟩
          · rw [hst] at hev; cases hev
          · rw [hst] at hip; cases hip
        dsimp only at h
        split at h
        · cases h
        · rw [except_bind_ok] at h
          obtain ⟨t2, h2, h⟩ := h
          rw [except_bind_ok] at h
          obtain ⟨nb, hnb, h⟩ := h
          have hstep1 : table_cell_at (setCell t i
              { pay := EPayload.clone d, status := Status.inprogress }) j
              = .ok c := by rw [cellAt_set_ne j _ hvalid hji]; exact hcj
          have hstep2 := ih _ _ _ h2 _ _ hstep1 hp
          have d2 := table_eval_cell_dims fuel _ _ _ h2
          simp only [setCell_rows, setCell_cols, setCell_cells_length] at d2
          have hvalid2 : i.row < t2.rows ∧ i.col < t2.cols := by
            rw [d2.1, d2.2.1]; exact hvalid
          cases hnp : nb.pay <;> rw [hnp] at h
          case text =>
            cases h; rw [cellAt_set_ne j _ hvalid2 hji]; exact hstep2
          case num =>
            cases h; rw [cellAt_set_ne j _ hvalid2 hji]; exact hstep2
          case clone =>
            cases h; rw [cellAt_set_ne j _ hvalid2 hji]; exact hstep2
          case expr e v0 =>
            dsimp only at h
            rw [except_bind_ok] at h
            obtain ⟨⟨v, t4⟩, hE, h⟩ := h
            dsimp only at h
            rw [except_bind_ok] at h
            obtain ⟨c2, hc2, h⟩ := h
            cases h
            have hstep3 : table_cell_at (setCell t2 i
                { pay := EPayload.expr (moveExprT e (opposite_dir d)) v0,
                  status := Status.inprogress }) j = .ok c := by
              rw [cellAt_set_ne j _ hvalid2 hji]; exact hstep2
            have hstep4 := evalExprBody_pinned (fun t i t' h => ih t i t' h) _ _ _ _ hE _ _ hstep3 hp
            have d4 := evalExprBody_dims (fun t i t' h => table_eval_cell_dims fuel t i t' h) _ _ _ _ hE
            simp only [setCell_rows, setCell_cols, setCell_cells_length] at d4
            have hvalid4 : i.row < t4.rows ∧ i.col < t4.cols := by
              rw [d4.1, d4.2.1]; exact hvalid2
            rw [cellAt_set_ne j _ hvalid4 hji]
            exact hstep4

/-! ### Coherence with the denotation -/

theorem cellAt_mem {t : ETable} {i : CellIndex} {c : ECell}
    (h : table_cell_at t i = .ok c) : c ∈ t.cells := by
  rw [table_cell_at_ok] at h
  exact List.get?_mem h.2.2

theorem coh_refl {t0 : ETable} (h : AllUnevaluated t0) : Coh t0 t0 := by
  refine ⟨rfl, rfl, rfl, ?_⟩
  intro i c hc
  have hm := cellAt_mem hc
  have hu := h c hm
  refine ⟨fun _ => ⟨c, hc, rfl⟩, fun hev => ?_, fun hip => ?_⟩
  · rw [hu] at hev; cases hev
  · rw [hu] at hip; cases hip

theorem coh_set {t0 t : ETable} (hcoh : Coh t0 t) {i : CellIndex} {cold : ECell} (c : ECell)
    (hold : table_cell_at t i = .ok cold)
    (hunev : c.status = .unevaluated → ∃ c0, table_cell_at t0 i = .ok c0 ∧ c0.pay = c.pay)
    (hev : c.status = .evaluated → PayRes t0 i c.pay)
    (hip : c.status = .inprogress → payExprClone c.pay = true) :
    Coh t0 (setCell t i c) := by
  obtain ⟨hr, hcn, hl, hcl⟩ := hcoh
  refine ⟨by simp [hr], by simp [hcn], by simp [hl], ?_⟩
  intro j cj hj
  by_cases hji : j = i
  · subst hji
    have hcj : cj = c := by rw [cellAt_set_self c hold] at hj; cases hj; rfl
    subst hcj
    exact ⟨hunev, hev, hip⟩
  · rw [cellAt_set_ne j _ (cellAt_valid hold) hji] at hj
    exact hcl j cj hj

theorem coh_dims {t0 t : ETable} (h : Coh t0 t) :
    t.rows = t0.rows ∧ t.cols = t0.cols ∧ t.cells.length = t0.cells.length :=
  ⟨h.1, h.2.1, h.2.2.1⟩

theorem evalExprBody_coh {t0 : ETable} {fuel : Nat}
    {evalC : ETable → CellIndex → Except Err ETable}
    (hC : ∀ t i t', Coh t0 t → evalC t i = .ok t' →
      Coh t0 t' ∧ ∃ c', table_cell_at t' i = .ok c' ∧ c'.status = .evaluated) :
    ∀ e t v t', Coh t0 t → evalExprBody fuel evalC t e = .ok (v, t') →
      Coh t0 t' ∧ ∃ f, denoteExpr f t0 e = .ok v := by
  intro e
  induction e with
  | num w =>
    intro t v t' hcoh h
    unfold evalExprBody at h
    cases h
    exact ⟨hcoh, 0, by simp [denoteExpr]⟩
  | cellRef r cc =>
    intro t v t' hcoh h
    unfold evalExprBody at h
    rw [except_bind_ok] at h
    obtain ⟨t1, h1, h⟩ := h
    rw [except_bind_ok] at h
    obtain ⟨tc, h2, h⟩ := h
    obtain ⟨hcoh1, c', hc', hcev⟩ := hC _ _ _ hcoh h1
    have htc : tc = c' := cellAt_inj h2 hc'
    subst htc
    have hres : PayRes t0 ⟨r, cc⟩ tc.pay := (hcoh1.2.2.2 _ _ h2).2.1 hcev
    obtain ⟨f, hden⟩ := hres
    cases hpay : tc.pay <;> rw [hpay] at h
    case text => cases h
    case clone => cases h
    case num w =>
      cases h
      rw [hpay] at hden
      refine ⟨hcoh1, f, ?_⟩
      unfold denoteExpr
      rw [hden, except_ok_bind]
    case expr e2 w =>
      cases h
      rw [hpay] at hden
      refine ⟨hcoh1, f, ?_⟩
      unfold denoteExpr
      rw [hden, except_ok_bind]
  | bop k l r ihl ihr =>
    intro t v t' hcoh h
    unfold evalExprBody at h
    rw [except_bind_ok] at h
    obtain ⟨⟨lv, t1⟩, hl, h⟩ := h
    dsimp only at h
    rw [except_bind_ok] at h
    obtain ⟨⟨rv, t2⟩, hr, h⟩ := h
    dsimp only at h
    obtain ⟨hcoh1, f1, hd1⟩ := ihl _ _ _ hcoh hl
    obtain ⟨hcoh2, f2, hd2⟩ := ihr _ _ _ hcoh1 hr
    have hd1' : denoteExpr (max (max f1 f2) fuel) t0 l = .ok lv :=
      denoteExpr_mono_le (by omega) hd1
    have hd2' : denoteExpr (max (max f1 f2) fuel) t0 r = .ok rv :=
      denoteExpr_mono_le (by omega) hd2
    cases k <;> dsimp only at h
    case plus =>
      cases h
      exact ⟨hcoh2, max (max f1 f2) fuel, by
        unfold denoteExpr
        rw [hd1', except_ok_bind, hd2', except_ok_bind]⟩
    case minus =>
      cases h
      exact ⟨hcoh2, max (max f1 f2) fuel, by
        unfold denoteExpr
        rw [hd1', except_ok_bind, hd2', except_ok_bind]⟩
    case mult =>
      cases h
      exact ⟨hcoh2, max (max f1 f2) fuel, by
        unfold denoteExpr
        rw [hd1', except_ok_bind, hd2', except_ok_bind]⟩
    case div =>
      cases h
      exact ⟨hcoh2, max (max f1 f2) fuel, by
        unfold denoteExpr
        rw [hd1', except_ok_bind, hd2', except_ok_bind]⟩
    case pow =>
      cases hb : bin_pow fuel lv (ratTrunc rv) <;> rw [hb] at h
      · cases h
      · cases h
        have hb' : bin_pow (max (max f1 f2) fuel) lv (ratTrunc rv) = some v :=
          bin_pow_mono_le (by omega) hb
        exact ⟨hcoh2, max (max f1 f2) fuel, by
          unfold denoteExpr
          rw [hd1', except_ok_bind, hd2', except_ok_bind]
          dsimp only
          rw [hb']⟩
  | neg e1 ih =>
    intro t v t' hcoh h
    unfold evalExprBody at h
    rw [except_bind_ok] at h
    obtain ⟨⟨w, t1⟩, hw, h⟩ := h
    dsimp only at h
    cases h
    obtain ⟨hcoh1, f, hd⟩ := ih _ _ _ hcoh hw
    exact ⟨hcoh1, f, by
      unfold denoteExpr
      rw [hd, except_ok_bind]⟩

/-- Main refinement: a successful `table_eval_cell` step preserves
coherence with the initial table and leaves the visited cell evaluated,
so its payload is the cell's denotation. -/
theorem table_eval_cell_coh {t0 : ETable} :
    ∀ fuel t i t', Coh t0 t → table_eval_cell fuel t i = .ok t' →
      Coh t0 t' ∧ ∃ c', table_cell_at t' i = .ok c' ∧ c'.status = .evaluated := by
  intro fuel
  induction fuel with
  | zero => intro t i t' _ h; cases h
  | succ fuel ih =>
    intro t i t' hcoh h
    unfold table_eval_cell at h
    rw [except_bind_ok] at h
    obtain ⟨ci, hci, h⟩ := h
    have hclause := hcoh.2.2.2 _ _ hci
    cases hpay : ci.pay <;> rw [hpay] at h
    case text s =>
      cases h
      have hres : PayRes t0 i (EPayload.text s) := by
        cases hst : ci.status with
        | unevaluated =>
          obtain ⟨c0, hc0, hc0p⟩ := hclause.1 hst
          rw [hpay] at hc0p
          exact ⟨1, by unfold denoteCell; rw [hc0, except_ok_bind, hc0p]⟩
        | evaluated =>
          have hx := hclause.2.1 hst
          rw [hpay] at hx
          exact hx
        | inprogress =>
          have hx := hclause.2.2 hst
          rw [hpay] at hx
          simp [payExprClone] at hx
      exact ⟨coh_set hcoh _ hci (by intro hx; cases hx) (fun _ => hres)
        (by intro hx; cases hx), _, cellAt_set_self _ hci, rfl⟩
    case num w =>
      cases h
      have hres : PayRes t0 i (EPayload.num w) := by
        cases hst : ci.status with
        | unevaluated =>
          obtain ⟨c0, hc0, hc0p⟩ := hclause.1 hst
          rw [hpay] at hc0p
          exact ⟨1, by unfold denoteCell; rw [hc0, except_ok_bind, hc0p]⟩
        | evaluated =>
          have hx := hclause.2.1 hst
          rw [hpay] at hx
          exact hx
        | inprogress =>
          have hx := hclause.2.2 hst
          rw [hpay] at hx
          simp [payExprClone] at hx
      exact ⟨coh_set hcoh _ hci (by intro hx; cases hx) (fun _ => hres)
        (by intro hx; cases hx), _, cellAt_set_self _ hci, rfl⟩
    case expr e v0 =>
      cases hst : ci.status <;> rw [hst] at h
      case inprogress => cases h
      case evaluated => cases h; exact ⟨hcoh, ci, hci, hst⟩
      case unevaluated =>
        obtain ⟨c0, hc0, hc0p⟩ := hclause.1 hst
        rw [hpay] at hc0p
        dsimp only at h
        rw [except_bind_ok] at h
        obtain ⟨⟨v, t2⟩, hE, h⟩ := h
        dsimp only at h
        rw [except_bind_ok] at h
        obtain ⟨c2, hc2, h⟩ := h
        cases h
        have hcoh1 : Coh t0 (setCell t i
            { pay := EPayload.expr e v0, status := Status.inprogress }) :=
          coh_set hcoh _ hci (by intro hx; cases hx) (by intro hx; cases hx)
            (fun _ => by simp [payExprClone])
        obtain ⟨hcoh2, f, hden⟩ :=
          evalExprBody_coh (fun t i t' hc hh => ih t i t' hc hh) _ _ _ _ hcoh1 hE
        have hpin : table_cell_at t2 i =
            .ok { pay := EPayload.expr e v0, status := Status.inprogress } :=
          evalExprBody_pinned (fun t i t' hh => table_eval_cell_pinned fuel t i t' hh)
            _ _ _ _ hE _ _ (cellAt_set_self _ hci)
            (Or.inr ⟨rfl, by simp [payExprClone]⟩)
        have hc2eq : c2 = { pay := EPayload.expr e v0, status := Status.inprogress } :=
          cellAt_inj hc2 hpin
        subst hc2eq
        have hres : PayRes t0 i (EPayload.expr e v) := ⟨f + 1, by
          unfold denoteCell
          rw [hc0, except_ok_bind, hc0p]
          dsimp only
          rw [hden, except_ok_bind]⟩
        exact ⟨coh_set hcoh2 { pay := EPayload.expr e v, status := Status.evaluated }
            hpin (by intro hx; cases hx) (fun _ => hres) (by intro hx; cases hx),
          _, cellAt_set_self _ hpin, rfl⟩
    case clone d =>
      cases hst : ci.status <;> rw [hst] at h
      case inprogress => cases h
      case evaluated => cases h
      case unevaluated =>
        obtain ⟨c0, hc0, hc0p⟩ := hclause.1 hst
        rw [hpay] at hc0p
        dsimp only at h
        split at h
        · cases h
        · rename_i hbnd
          rw [except_bind_ok] at h
          obtain ⟨t2, h2, h⟩ := h
          rw [except_bind_ok] at h
          obtain ⟨nb, hnb, h⟩ := h
          have hcoh1 : Coh t0 (setCell t i
              { pay := EPayload.clone d, status := Status.inprogress }) :=
            coh_set hcoh _ hci (by intro hx; cases hx) (by intro hx; cases hx)
              (fun _ => by simp [payExprClone])
          obtain ⟨hcoh2, cn, hcn, hcnev⟩ := ih _ _ _ hcoh1 h2
          have hnbeq : nb = cn := cellAt_inj hnb hcn
          subst hnbeq
          obtain ⟨fn, hdn⟩ := (hcoh2.2.2.2 _ _ hnb).2.1 hcnev
          have hdt := coh_dims hcoh
          have hbnd0 : ¬(t0.rows ≤ (nbor_in_dir i d).row ∨
              t0.cols ≤ (nbor_in_dir i d).col) := by
            simp only [setCell_rows, setCell_cols] at hbnd
            rw [hdt.1, hdt.2.1] at hbnd
            exact hbnd
          have hpin : table_cell_at t2 i =
              .ok { pay := EPayload.clone d, status := Status.inprogress } :=
            table_eval_cell_pinned fuel _ _ _ h2 _ _ (cellAt_set_self _ hci)
              (Or.inr ⟨rfl, by simp [payExprClone]⟩)
          cases hnp : nb.pay <;> rw [hnp] at h <;> rw [hnp] at hdn
          case text s =>
            cases h
            have hres : PayRes t0 i (EPayload.text s) := ⟨fn + 1, by
              unfold denoteCell
              rw [hc0, except_ok_bind, hc0p]
              dsimp only
              rw [if_neg hbnd0, hdn, except_ok_bind]⟩
            exact ⟨coh_set hcoh2 { pay := EPayload.text s, status := Status.evaluated }
                hpin (by intro hx; cases hx) (fun _ => hres) (by intro hx; cases hx),
              _, cellAt_set_self _ hpin, rfl⟩
          case num w =>
            cases h
            have hres : PayRes t0 i (EPayload.num w) := ⟨fn + 1, by
              unfold denoteCell
              rw [hc0, except_ok_bind, hc0p]
              dsimp only
              rw [if_neg hbnd0, hdn, except_ok_bind]⟩
            exact ⟨coh_set hcoh2 { pay := EPayload.num w, status := Status.evaluated }
                hpin (by intro hx; cases hx) (fun _ => hres) (by intro hx; cases hx),
              _, cellAt_set_self _ hpin, rfl⟩
          case clone d2 =>
            exact absurd rfl (denoteCell_not_clone _ _ _ hdn d2)
          case expr e v0 =>
            dsimp only at h
            rw [except_bind_ok] at h
            obtain ⟨⟨v, t4⟩, hE, h⟩ := h
            dsimp only at h
            rw [except_bind_ok] at h
            obtain ⟨c2, hc2, h⟩ := h
            cases h
            have hcoh3 : Coh t0 (setCell t2 i
                { pay := EPayload.expr (moveExprT e (opposite_dir d)) v0,
                  status := Status.inprogress }) :=
              coh_set hcoh2 _ hpin (by intro hx; cases hx) (by intro hx; cases hx)
                (fun _ => by simp [payExprClone])
            obtain ⟨hcoh4, fe, hde⟩ :=
              evalExprBody_coh (fun t i t' hc hh => ih t i t' hc hh) _ _ _ _ hcoh3 hE
            have hpin4 : table_cell_at t4 i =
                .ok { pay := EPayload.expr (moveExprT e (opposite_dir d)) v0,
                      status := Status.inprogress } :=
              evalExprBody_pinned (fun t i t' hh => table_eval_cell_pinned fuel t i t' hh)
                _ _ _ _ hE _ _ (cellAt_set_self _ hpin)
                (Or.inr ⟨rfl, by simp [payExprClone]⟩)
            have hc2eq : c2 = ({ pay := EPayload.expr (moveExprT e (opposite_dir d)) v0, status := Status.inprogress } : ECell) := cellAt_inj hc2 hpin4
            subst hc2eq
            have hres : PayRes t0 i
                (EPayload.expr (moveExprT e (opposite_dir d)) v) := ⟨max fn fe + 1, by
              unfold denoteCell
              rw [hc0, except_ok_bind, hc0p]
              dsimp only
              rw [if_neg hbnd0,
                denoteCell_mono_le (Nat.le_max_left fn fe) hdn, except_ok_bind]
              dsimp only
              rw [denoteExpr_mono_le (Nat.le_max_right fn fe) hde, except_ok_bind]⟩
            exact ⟨coh_set hcoh4
                { pay := EPayload.expr (moveExprT e (opposite_dir d)) v,
                  status := Status.evaluated }
                hpin4 (by intro hx; cases hx) (fun _ => hres) (by intro hx; cases hx),
              _, cellAt_set_self _ hpin4, rfl⟩

/-! ### Runs over a visit order -/

theorem runOrder_coh {t0 : ETable} {F : Nat} :
    ∀ ord t s, Coh t0 t → runOrder F ord t = .ok s → Coh t0 s := by
  intro ord
  induction ord with
  | nil => intro t s hcoh h; cases h; exact hcoh
  | cons x rest ih =>
    intro t s hcoh h
    unfold runOrder at h
    rw [except_bind_ok] at h
    obtain ⟨t1, h1, h⟩ := h
    exact ih t1 s (table_eval_cell_coh F t x t1 hcoh h1).1 h

theorem runOrder_pinned {F : Nat} :
    ∀ ord t s, runOrder F ord t = .ok s →
      ∀ j c, table_cell_at t j = .ok c → Pinned c → table_cell_at s j = .ok c := by
  intro ord
  induction ord with
  | nil => intro t s h j c hc hp; cases h; exact hc
  | cons x rest ih =>
    intro t s h j c hc hp
    unfold runOrder at h
    rw [except_bind_ok] at h
    obtain ⟨t1, h1, h⟩ := h
    exact ih t1 s h j c (table_eval_cell_pinned F t x t1 h1 j c hc hp) hp

theorem runOrder_evaluated {t0 : ETable} {F : Nat} :
    ∀ ord t s, Coh t0 t → runOrder F ord t = .ok s →
      ∀ i, i ∈ ord → ∃ c', table_cell_at s i = .ok c' ∧ c'.status = .evaluated := by
  intro ord
  induction ord with
  | nil => intro t s _ _ i hi; cases hi
  | cons x rest ih =>
    intro t s hcoh h i hi
    unfold runOrder at h
    rw [except_bind_ok] at h
    obtain ⟨t1, h1, h⟩ := h
    rcases List.mem_cons.mp hi with hx | hrest
    · subst hx
      obtain ⟨hcoh1, c', hc', hev⟩ := table_eval_cell_coh F t i t1 hcoh h1
      exact ⟨c', runOrder_pinned rest t1 s h i c' hc' (Or.inl hev), hev⟩
    · exact ih t1 s (table_eval_cell_coh F t x t1 hcoh h1).1 h i hrest

theorem reaches_coh {t0 t : ETable} (hall : AllUnevaluated t0) (h : Reaches t0 t) :
    Coh t0 t := by
  induction h with
  | refl => exact coh_refl hall
  | step fuel i hre hstep ih => exact (table_eval_cell_coh fuel _ i _ ih hstep).1

theorem coh_noEvaluatedClone {t0 t : ETable} (h : Coh t0 t) : NoEvaluatedClone t := by
  intro i c hc hev d hpc
  obtain ⟨f, hden⟩ := (h.2.2.2 _ _ hc).2.1 hev
  rw [hpc] at hden
  exact denoteCell_not_clone _ _ _ hden d rfl

theorem mkTable_allUnevaluated {pf : Nat} {content : List Char} {t0 : ETable}
    (h : mkTable pf content = .ok t0) : AllUnevaluated t0 := by
  unfold mkTable at h
  rw [except_bind_ok] at h
  obtain ⟨⟨rows, cols, pcells, eb⟩, hp, h⟩ := h
  dsimp only at h
  split at h
  · cases h
    intro c hm
    rw [List.mem_map] at hm
    obtain ⟨p, _, rfl⟩ := hm
    rfl
  · cases h

/-! ### Helper results for the claims -/

/-- Evaluating a cell whose expression is a direct reference to itself
raises the cycle error after the in-progress marker is re-entered. -/
theorem self_ref_cycle (f : Nat) (t : ETable) (i : CellIndex) (c : ECell) (v : ℚ)
    (hc : table_cell_at t i = .ok c) (hpay : c.pay = .expr (.cellRef i.row i.col) v)
    (hst : c.status = .unevaluated) :
    table_eval_cell (f + 2) t i = .error .cycle := by
  show table_eval_cell ((f + 1) + 1) t i = .error .cycle
  unfold table_eval_cell
  rw [hc, except_ok_bind, hpay]
  dsimp only
  rw [hst]
  dsimp only
  unfold evalExprBody
  rw [show (⟨i.row, i.col⟩ : CellIndex) = i from rfl]
  show ((table_eval_cell (f + 1) _ i >>= _) >>= _) = _
  unfold table_eval_cell
  rw [cellAt_set_self _ hc, except_ok_bind]
  dsimp only
  rfl

/-- `bin_pow` terminates whenever its exponent is non-negative: fuel one
more than the exponent suffices. -/
theorem bin_pow_total (b : ℚ) :
    ∀ fuel (n : ℤ), 0 ≤ n → n.toNat < fuel → ∃ q, bin_pow fuel b n = some q := by
  intro fuel
  induction fuel with
  | zero => intro n h1 h2; omega
  | succ f ih =>
    intro n h1 h2
    by_cases h0 : n = 0
    · subst h0
      exact ⟨1, by unfold bin_pow; rw [if_pos rfl]⟩
    · by_cases he : n % 2 = 0
      · obtain ⟨q, hq⟩ := ih (n / 2) (by omega) (by omega)
        exact ⟨q * q, by unfold bin_pow; rw [if_neg h0, if_pos he, hq]; rfl⟩
      · obtain ⟨q, hq⟩ := ih (n - 1) (by omega) (by omega)
        exact ⟨b * q, by unfold bin_pow; rw [if_neg h0, if_neg he, hq]; rfl⟩

/-! ### Claim theorems -/

section
attribute [local semireducible] Rat.mul Rat.add Rat.sub Rat.inv

/-- C1 counterexample: the claim says `=-5+2` resolves to -3.0, but the
unary minus of `parse_primary_expr` consumes a whole expression, so the
program resolves `=-5+2` to -(5+2) = -7.0. -/
theorem c1_counterexample :
    fileCellValue ("=-5+2") ⟨0, 0⟩ = some (-7) ∧
    fileCellValue ("=-5+2") ⟨0, 0⟩ ≠ some (-3) := by
  exact ⟨rfl, by decide⟩

/-- C1 amended: single-cell formulas resolve as claimed except `=-5+2`,
which resolves to -7.0 (unary minus applies to the whole following
expression): `=2*3` to 6.0, `=2-5` to -3.0, `=10/4` to 2.5, `=2^3` to
8.0, `=-5+2` to -7.0, and `=A1+B1` with A1 = 3 and B1 = 4 to 7.0. -/
theorem c1_amended_values :
    fileCellValue ("=2*3") ⟨0, 0⟩ = some 6 ∧
    fileCellValue ("=2-5") ⟨0, 0⟩ = some (-3) ∧
    fileCellValue ("=10/4") ⟨0, 0⟩ = some (5 / 2) ∧
    fileCellValue ("=2^3") ⟨0, 0⟩ = some 8 ∧
    fileCellValue ("=-5+2") ⟨0, 0⟩ = some (-7) ∧
    fileCellValue ("=A1+B1|0\n3|4") ⟨0, 0⟩ = some 7 := by
  exact ⟨rfl, rfl, rfl, rfl, rfl, rfl⟩

/-- C2 counterexample: in the grid `x|:>|=C1` / `10|20|30`, the `:>`
clone at row 0, column 1 resolves to an expression with value 20 (its
*right* neighbor's tree `C1`, shifted one column left and re-evaluated),
while the cell at column c−1 = 0 resolves to the text `x`: the clone's
resolved tag and value do not come from column c−1. -/
theorem c2_counterexample :
    fileCellPay ("x|:>|=C1\n10|20|30") ⟨0, 1⟩ = some (.expr (.cellRef 1 1) 20) ∧
    fileCellPay ("x|:>|=C1\n10|20|30") ⟨0, 0⟩ = some (.text [('x')]) ∧
    (EPayload.expr (.cellRef 1 1) 20 ≠ EPayload.text [('x')]) := by
  exact ⟨rfl, rfl, by decide⟩

/-- C4 amended: the parsed grid `0|0` / `=B1|=A1` holds the mutually
referential cells A1 = `=B1` and B1 = `=A1`; for every fuel, evaluating
either cell, or the whole table in row-major order, stops with the cycle
error (never exhausting fuel, never recursing infinitely and never
producing a silently wrong value), and in general any unevaluated
expression cell that refers directly to itself evaluates to the cycle
error.  (CycleError is guaranteed when the in-progress cell is actually
re-entered; an error raised by an earlier operand can preempt it, see
the counterexample.) -/
theorem c4_mutual_reference_cycle :
    mkTable 64 (("0|0\n=B1|=A1").toList) = .ok mutualRefTable ∧
    (∀ f, table_eval_cell (f + 3) mutualRefTable ⟨1, 0⟩ = .error .cycle) ∧
    (∀ f, table_eval_cell (f + 3) mutualRefTable ⟨1, 1⟩ = .error .cycle) ∧
    (∀ f, runOrder (f + 3) (rowMajorOrder 2 2) mutualRefTable = .error .cycle) ∧
    (∀ f t i c v, table_cell_at t i = .ok c →
      c.pay = .expr (.cellRef i.row i.col) v → c.status = .unevaluated →
      table_eval_cell (f + 2) t i = .error .cycle) := by
  refine ⟨rfl, fun f => rfl, fun f => rfl, fun f => rfl, ?_⟩
  intro f t i c v hc hpay hst
  exact self_ref_cycle f t i c v hc hpay hst

/-- C4 witness: a 1×1 table whose only cell is `=A0` raises the cycle
error. -/
theorem c4_witness :
    table_eval_cell 2
      { rows := 1, cols := 1,
        cells := [{ pay := .expr (.cellRef 0 0) 0, status := .unevaluated }] }
      ⟨0, 0⟩ = .error .cycle :=
  c4_mutual_reference_cycle.2.2.2.2 0 _ ⟨0, 0⟩ _ 0 rfl rfl rfl

/-- C5 amended: evaluating a cell index outside
`[0,rows) × [0,cols)` fails with the bounds error (the model of the
`table_cell_at` assertion, which the build keeps enabled; nothing
outside the cell list is ever read), a cell-reference expression to such
an index fails the same way once the reference is reached (an error on
an earlier operand can preempt it, see the counterexample), and an
unevaluated clone whose neighbor index lies outside the extent fails
with the clone-bounds error. -/
theorem c5_bounds_errors :
    (∀ fuel t (j : CellIndex), ¬(j.row < t.rows ∧ j.col < t.cols) →
      table_eval_cell (fuel + 1) t j = .error .bounds) ∧
    (∀ fuel t r c, ¬(r < t.rows ∧ c < t.cols) →
      table_eval_expr (fuel + 1) t (.cellRef r c) = .error .bounds) ∧
    (∀ fuel t i c d, table_cell_at t i = .ok c → c.pay = .clone d →
      c.status = .unevaluated →
      (t.rows ≤ (nbor_in_dir i d).row ∨ t.cols ≤ (nbor_in_dir i d).col) →
      table_eval_cell (fuel + 1) t i = .error .cloneBounds) := by
  have p1 : ∀ fuel t (j : CellIndex), ¬(j.row < t.rows ∧ j.col < t.cols) →
      table_eval_cell (fuel + 1) t j = .error .bounds := by
    intro fuel t j h
    have hb : table_cell_at t j = .error .bounds := by
      unfold table_cell_at
      rw [if_neg h]
    unfold table_eval_cell
    rw [hb, except_error_bind]
  refine ⟨p1, ?_, ?_⟩
  · intro fuel t r c h
    unfold table_eval_expr
    unfold evalExprBody
    rw [except_bind_error]
    exact Or.inl (p1 fuel t ⟨r, c⟩ h)
  · intro fuel t i c d hc hpay hst hoob
    unfold table_eval_cell
    rw [hc, except_ok_bind, hpay]
    dsimp only
    rw [hst]
    dsimp only
    simp only [setCell_rows, setCell_cols]
    rw [if_pos hoob]

/-- C5 witness: concrete out-of-range accesses on the demo tables. -/
theorem c5_witness :
    table_eval_cell 1 cloneDemoTable ⟨9, 9⟩ = .error .bounds ∧
    table_eval_expr 1 cloneDemoTable (.cellRef 9 9) = .error .bounds ∧
    table_eval_cell 1
      { rows := 1, cols := 1,
        cells := [{ pay := .clone .left, status := .unevaluated }] }
      ⟨0, 0⟩ = .error .cloneBounds :=
  ⟨c5_bounds_errors.1 0 cloneDemoTable ⟨9, 9⟩ (by decide),
   c5_bounds_errors.2.1 0 cloneDemoTable 9 9 (by decide),
   c5_bounds_errors.2.2 0 _ ⟨0, 0⟩ _ .left rfl rfl rfl (by decide)⟩

/-- C10 (confirmed): for every base and every integer exponent n ≥ 0 the
repeated-squaring routine `bin_pow` terminates — fuel n+1 suffices and
is consumed only along the n-decreasing recursion — and
`bin_pow base 0 = 1.0`.  (Nothing checks the truncated exponent of the
power operator for negativity; for n < 0 the recursion never reaches its
base case, which the fuel model renders as `none` for every fuel.) -/
theorem c10_bin_pow_terminates (b : ℚ) (n : ℤ) (h : 0 ≤ n) :
    (∃ q, bin_pow (n.toNat + 1) b n = some q) ∧ bin_pow 1 b 0 = some 1 := by
  refine ⟨bin_pow_total b (n.toNat + 1) n h (by omega), ?_⟩
  unfold bin_pow
  rw [if_pos rfl]

/-- C10 witness: `bin_pow 2 3` terminates within fuel 4 and
`bin_pow 2 0 = 1`. -/
theorem c10_witness :
    (∃ q, bin_pow ((3 : ℤ).toNat + 1) 2 3 = some q) ∧ bin_pow 1 2 0 = some 1 :=
  c10_bin_pow_terminates 2 3 (by decide)

end

section
attribute [local semireducible] Rat.mul Rat.add Rat.sub Rat.inv

/-- C8 (confirmed): the parser associates `+`/`-` chains to the right:
for all decimal digits a, b, c the formula `a-b-c` parses to the tree
a-(b-c), and evaluation follows that tree — `=1-2-3` resolves to
1-(2-3) = 2, not to the conventional left-to-right (1-2)-3 = -4. -/
theorem c8_right_associative_chains :
    (∀ d1 d2 d3 : Fin 10,
      parseTreeOf [dchar d1, ('-'), dchar d2, ('-'), dchar d3] =
        some (.bop .minus (.num (d1.val : ℚ))
          (.bop .minus (.num (d2.val : ℚ)) (.num (d3.val : ℚ))))) ∧
    fileCellValue ("=1-2-3") ⟨0, 0⟩ = some 2 ∧
    (2 : ℚ) = 1 - (2 - 3) ∧ (2 : ℚ) ≠ (1 - 2) - 3 := by
  exact ⟨by decide, rfl, by norm_num, by norm_num⟩

/-- C3 (confirmed): for a parsed table, any two successful evaluation
runs whose visit orders both cover every cell produce identical resolved
payloads (tag, tree and cached value) at every cell — the final values
are independent of the visit order, row-major or otherwise. -/
theorem c3_order_independence {t0 s1 s2 : ETable} {F1 F2 : Nat}
    {ord1 ord2 : List CellIndex}
    (hall : AllUnevaluated t0)
    (hcov1 : ∀ k, k ∈ rowMajorOrder t0.rows t0.cols → k ∈ ord1)
    (hcov2 : ∀ k, k ∈ rowMajorOrder t0.rows t0.cols → k ∈ ord2)
    (hr1 : runOrder F1 ord1 t0 = .ok s1)
    (hr2 : runOrder F2 ord2 t0 = .ok s2) :
    ∀ i c1 c2, table_cell_at s1 i = .ok c1 → table_cell_at s2 i = .ok c2 →
      c1.pay = c2.pay := by
  have hcoh0 := coh_refl hall
  have hcoh1 := runOrder_coh ord1 t0 s1 hcoh0 hr1
  have hcoh2 := runOrder_coh ord2 t0 s2 hcoh0 hr2
  intro i c1 c2 h1 h2
  have hv := cellAt_valid h1
  rw [hcoh1.1, hcoh1.2.1] at hv
  have hmem := mem_rowMajorOrder hv.1 hv.2
  obtain ⟨c1', hc1', he1⟩ := runOrder_evaluated ord1 t0 s1 hcoh0 hr1 i (hcov1 _ hmem)
  obtain ⟨c2', hc2', he2⟩ := runOrder_evaluated ord2 t0 s2 hcoh0 hr2 i (hcov2 _ hmem)
  have e1 : c1 = c1' := cellAt_inj h1 hc1'
  have e2 : c2 = c2' := cellAt_inj h2 hc2'
  subst e1
  subst e2
  obtain ⟨f1, hd1⟩ := (hcoh1.2.2.2 _ _ h1).2.1 he1
  obtain ⟨f2, hd2⟩ := (hcoh2.2.2.2 _ _ h2).2.1 he2
  have hd1' := denoteCell_mono_le (Nat.le_max_left f1 f2) hd1
  have hd2' := denoteCell_mono_le (Nat.le_max_right f1 f2) hd2
  rw [hd1'] at hd2'
  injection hd2'

/-- C3 witness: evaluating `=B0|2` / `3|4` in row-major order and in the
reversed order both reach `orderDemoFinal`, so any cell's payload read
from each run agrees. -/
theorem c3_witness :
    ({ pay := EPayload.expr (.cellRef 0 1) 2, status := .evaluated } : ECell).pay =
      ({ pay := EPayload.expr (.cellRef 0 1) 2, status := .evaluated } : ECell).pay :=
  c3_order_independence
    (show AllUnevaluated orderDemoTable by unfold AllUnevaluated orderDemoTable; decide)
    (by decide) (by decide)
    (show runOrder 40 (rowMajorOrder 2 2) orderDemoTable = .ok orderDemoFinal from rfl)
    (show runOrder 40 [⟨1, 1⟩, ⟨1, 0⟩, ⟨0, 1⟩, ⟨0, 0⟩] orderDemoTable
       = .ok orderDemoFinal from rfl)
    ⟨0, 0⟩ _ _ rfl rfl

/-- C2 amended: a `:>` clone at (r, c) whose run succeeds copies the
resolved tag of its *right-hand* neighbor (r, c+1) — not column c−1;
text and number payloads are copied verbatim, while an expression
payload keeps the neighbor's resolved tree translated one column to the
left (the direction opposite the clone's) and re-evaluated, so its
cached value is the translated tree's value, not the neighbor's. -/
theorem c2_amended_clone_right {t0 s : ETable} {F : Nat} {ord : List CellIndex}
    {i : CellIndex} {c0 : ECell}
    (hall : AllUnevaluated t0)
    (hcov : ∀ k, k ∈ rowMajorOrder t0.rows t0.cols → k ∈ ord)
    (hrun : runOrder F ord t0 = .ok s)
    (hc : table_cell_at t0 i = .ok c0)
    (hk : c0.pay = .clone .right) :
    ∃ ci cj, table_cell_at s i = .ok ci ∧
      table_cell_at s (nbor_in_dir i .right) = .ok cj ∧
      cloneRightRel t0 ci.pay cj.pay := by
  have hcoh0 := coh_refl hall
  have hcohs := runOrder_coh ord t0 s hcoh0 hrun
  have hv0 := cellAt_valid hc
  obtain ⟨ci, hci, hevi⟩ :=
    runOrder_evaluated ord t0 s hcoh0 hrun i (hcov _ (mem_rowMajorOrder hv0.1 hv0.2))
  obtain ⟨f, hd⟩ := (hcohs.2.2.2 _ _ hci).2.1 hevi
  cases f with
  | zero => unfold denoteCell at hd; cases hd
  | succ f' =>
    unfold denoteCell at hd
    rw [except_bind_ok] at hd
    obtain ⟨c0', hc0', hd⟩ := hd
    have hee : c0' = c0 := cellAt_inj hc0' hc
    subst hee
    rw [hk] at hd
    dsimp only at hd
    split at hd
    · cases hd
    · rename_i hbnd
      rw [except_bind_ok] at hd
      obtain ⟨pj, hdj, hd⟩ := hd
      have hvj : (nbor_in_dir i Dir.right).row < t0.rows ∧
          (nbor_in_dir i Dir.right).col < t0.cols := ⟨by omega, by omega⟩
      obtain ⟨cj, hcj, hevj⟩ := runOrder_evaluated ord t0 s hcoh0 hrun _
        (hcov _ (mem_rowMajorOrder hvj.1 hvj.2))
      obtain ⟨fj, hdj2⟩ := (hcohs.2.2.2 _ _ hcj).2.1 hevj
      have hdjA := denoteCell_mono_le (Nat.le_max_left f' fj) hdj
      have hdjB := denoteCell_mono_le (Nat.le_max_right f' fj) hdj2
      rw [hdjA] at hdjB
      injection hdjB with hpj
      refine ⟨ci, cj, hci, hcj, ?_⟩
      rw [← hpj]
      cases hpjk : pj with
      | text s' =>
        rw [hpjk] at hd
        dsimp only at hd
        injection hd with hd
        exact hd.symm
      | num w =>
        rw [hpjk] at hd
        dsimp only at hd
        injection hd with hd
        exact hd.symm
      | clone d2 =>
        rw [hpjk] at hd
        dsimp only at hd
        injection hd with hd
        exact hd.symm
      | expr e v0 =>
        rw [hpjk] at hd
        dsimp only at hd
        rw [except_bind_ok] at hd
        obtain ⟨v', hde, hd⟩ := hd
        injection hd with hd
        rw [show opposite_dir Dir.right = Dir.left from rfl] at hd hde
        exact ⟨v', hd.symm, f', hde⟩

/-- C2 witness: in the clone demo grid the `:>` clone at (0,1) and its
right-hand neighbor (0,2) stand in the clone relation after a full
run. -/
theorem c2_witness :
    ∃ ci cj, table_cell_at cloneDemoFull ⟨0, 1⟩ = .ok ci ∧
      table_cell_at cloneDemoFull (nbor_in_dir ⟨0, 1⟩ .right) = .ok cj ∧
      cloneRightRel cloneDemoTable ci.pay cj.pay :=
  c2_amended_clone_right
    (show AllUnevaluated cloneDemoTable by unfold AllUnevaluated cloneDemoTable; decide)
    (by decide)
    (show runOrder 40 [⟨0, 1⟩, ⟨0, 0⟩, ⟨0, 2⟩, ⟨1, 0⟩, ⟨1, 1⟩, ⟨1, 2⟩] cloneDemoTable
       = .ok cloneDemoFull from rfl)
    rfl rfl

/-- C6 (confirmed): in every state reachable from a parsed table by any
sequence of successful `table_eval_cell` calls, no cell has status
`evaluated` while its tag is still a clone direction — clone resolution
rewrites the tag to the resolved neighbor's tag before marking the cell
evaluated. -/
theorem c6_evaluated_never_clone {pf : Nat} {content : List Char} {t0 t : ETable}
    (hmk : mkTable pf content = .ok t0) (hre : Reaches t0 t) :
    NoEvaluatedClone t :=
  coh_noEvaluatedClone (reaches_coh (mkTable_allUnevaluated hmk) hre)

/-- C6 witness: the state after resolving the demo clone has no
evaluated clone cell. -/
theorem c6_witness : NoEvaluatedClone cloneDemoStep :=
  c6_evaluated_never_clone
    (show mkTable 64 (("x|:>|=C1\n10|20|30").toList) = .ok cloneDemoTable from rfl)
    (Reaches.step 40 ⟨0, 1⟩ Reaches.refl rfl)

/-- C7 (confirmed): once a cell of a reachable state is `evaluated`,
calling `table_eval_cell` on it again returns the whole table unchanged:
the cached value is reread, the recursive evaluator is not re-entered,
and no cell or expression storage is modified. -/
theorem c7_evaluate_idempotent {pf : Nat} {content : List Char} {t0 t : ETable}
    {i : CellIndex} {c : ECell} (fuel : Nat)
    (hmk : mkTable pf content = .ok t0) (hre : Reaches t0 t)
    (hc : table_cell_at t i = .ok c) (hev : c.status = .evaluated) :
    table_eval_cell (fuel + 1) t i = .ok t := by
  have hnc := coh_noEvaluatedClone (reaches_coh (mkTable_allUnevaluated hmk) hre)
  unfold table_eval_cell
  rw [hc, except_ok_bind]
  cases hpay : c.pay with
  | text s =>
    have hcell : ({ pay := EPayload.text s, status := Status.evaluated } : ECell) = c := by
      cases c; simp_all
    rw [hcell, setCell_self_id hc]
  | num v =>
    have hcell : ({ pay := EPayload.num v, status := Status.evaluated } : ECell) = c := by
      cases c; simp_all
    rw [hcell, setCell_self_id hc]
  | expr e v0 =>
    rw [hev]
  | clone d =>
    exact absurd hpay (hnc i c hc hev d)

/-- C7 witness: re-evaluating the already evaluated number cell (1,0) of
the demo table returns the table unchanged. -/
theorem c7_witness : table_eval_cell 5 numDemoStep ⟨1, 0⟩ = .ok numDemoStep :=
  c7_evaluate_idempotent 4
    (show mkTable 64 (("x|:>|=C1\n10|20|30").toList) = .ok cloneDemoTable from rfl)
    (Reaches.step 1 ⟨1, 0⟩ Reaches.refl rfl) rfl rfl

end

/-! ### Arena invariant (C9) -/

@[simp]
theorem option_bind_some {α β : Type} {x : Option α} {g : α → Option β} {b : β} :
    (x >>= g) = some b ↔ ∃ a, x = some a ∧ g a = some b := by
  cases x <;> simp

theorem arenaInv_nil : ArenaInv [] := by
  intro i n h
  simp at h

theorem arenaInv_push {eb : Arena} {n : Node} (h : ArenaInv eb)
    (hn : nodeChildrenLt n eb.length) : ArenaInv (eb ++ [n]) := by
  intro i m hm
  rcases Nat.lt_trichotomy i eb.length with hlt | heq | hgt
  · rw [List.get?_append hlt] at hm
    exact h i m hm
  · subst heq
    rw [List.get?_concat_length] at hm
    cases hm
    exact hn
  · rw [List.get?_eq_none.mpr (by simp; omega)] at hm
    cases hm

theorem parse_primary_body_inv
    {pe : List Char → Arena → Except Err (Nat × Arena × List Char)}
    (hpe : ∀ src eb root eb' rest, ArenaInv eb → pe src eb = .ok (root, eb', rest) →
      ArenaInv eb' ∧ root < eb'.length ∧ eb.length ≤ eb'.length) :
    ∀ src eb root eb' rest, ArenaInv eb →
      parse_primary_body pe src eb = .ok (root, eb', rest) →
      ArenaInv eb' ∧ root < eb'.length ∧ eb.length ≤ eb'.length := by
  intro src eb root eb' rest hinv h
  unfold parse_primary_body at h
  rw [except_bind_ok] at h
  obtain ⟨⟨tok, src1⟩, htok, h⟩ := h
  dsimp only at h
  split at h
  · cases h
  · split at h
    · dsimp only [expr_buffer_alloc] at h
      cases h
      exact ⟨arenaInv_push hinv trivial, by simp, by simp⟩
    · split at h
      · rw [except_bind_ok] at h
        obtain ⟨⟨r1, eb1, src2⟩, hp, h⟩ := h
        dsimp only at h
        rw [except_bind_ok] at h
        obtain ⟨⟨tok2, src3⟩, ht2, h⟩ := h
        dsimp only at h
        split at h
        · cases h
          exact hpe _ _ _ _ _ hinv hp
        · cases h
      · split at h
        · rw [except_bind_ok] at h
          obtain ⟨⟨p1, eb1, src2⟩, hp, h⟩ := h
          dsimp only [expr_buffer_alloc] at h
          cases h
          obtain ⟨h1, h2, h3⟩ := hpe _ _ _ _ _ hinv hp
          exact ⟨arenaInv_push h1 h2, by simp, by simp; omega⟩
        · split at h
          · rename_i c rest'
            split at h
            · split at h
              · dsimp only [expr_buffer_alloc] at h
                cases h
                exact ⟨arenaInv_push hinv trivial, by simp, by simp⟩
              · cases h
            · cases h
          · cases h

theorem parse_bop_expr_inv :
    ∀ fuel prec src eb root eb' rest, ArenaInv eb →
      parse_bop_expr fuel prec src eb = .ok (root, eb', rest) →
      ArenaInv eb' ∧ root < eb'.length ∧ eb.length ≤ eb'.length := by
  intro fuel
  induction fuel with
  | zero => intro prec src eb root eb' rest _ h; cases h
  | succ fuel ih =>
    intro prec src eb root eb' rest hinv h
    unfold parse_bop_expr at h
    split at h
    · exact parse_primary_body_inv
        (fun s e r e2 rst hi hh => ih 0 s e r e2 rst hi hh) _ _ _ _ _ hinv h
    · rw [except_bind_ok] at h
      obtain ⟨⟨lhs, eb1, src1⟩, hl, h⟩ := h
      dsimp only at h
      rw [except_bind_ok] at h
      obtain ⟨⟨tok, srcP⟩, htok, h⟩ := h
      dsimp only at h
      obtain ⟨hinv1, hlhs, hle1⟩ := ih _ _ _ _ _ _ hinv hl
      split at h
      · split at h
        · rw [except_bind_ok] at h
          obtain ⟨⟨tk2, src2⟩, ht2, h⟩ := h
          dsimp only at h
          rw [except_bind_ok] at h
          obtain ⟨⟨rhs, eb2, src3⟩, hr, h⟩ := h
          dsimp only [expr_buffer_alloc] at h
          cases h
          obtain ⟨hinv2, hrhs, hle2⟩ := ih _ _ _ _ _ _ hinv1 hr
          exact ⟨arenaInv_push hinv2 ⟨by omega, hrhs⟩, by simp, by simp; omega⟩
        · cases h; exact ⟨hinv1, hlhs, hle1⟩
      · cases h; exact ⟨hinv1, hlhs, hle1⟩

theorem move_expr_in_dir_inv :
    ∀ fuel eb root d root' eb', ArenaInv eb → root < eb.length →
      move_expr_in_dir fuel eb root d = some (root', eb') →
      ArenaInv eb' ∧ root' < eb'.length ∧ eb.length ≤ eb'.length := by
  intro fuel
  induction fuel with
  | zero => intro eb root d root' eb' _ _ h; cases h
  | succ fuel ih =>
    intro eb root d root' eb' hinv hroot h
    unfold move_expr_in_dir at h
    cases hg : eb.get? root with
    | none => rw [hg] at h; cases h
    | some n =>
      rw [hg] at h
      cases n with
      | num v =>
        dsimp only at h
        cases h
        exact ⟨hinv, hroot, Nat.le_refl _⟩
      | cellRef r c =>
        dsimp only [expr_buffer_alloc] at h
        cases h
        exact ⟨arenaInv_push hinv trivial, by simp, by simp⟩
      | bop k l r =>
        dsimp only at h
        rw [option_bind_some] at h
        obtain ⟨⟨l2, eb1⟩, hl, h⟩ := h
        dsimp only at h
        rw [option_bind_some] at h
        obtain ⟨⟨r2, eb2⟩, hr, h⟩ := h
        dsimp only [expr_buffer_alloc] at h
        cases h
        obtain ⟨hlr, hrr⟩ := hinv root _ hg
        obtain ⟨hinv1, h1, hle1⟩ := ih _ _ _ _ _ hinv (by omega) hl
        obtain ⟨hinv2, h2, hle2⟩ := ih _ _ _ _ _ hinv1 (by omega) hr
        exact ⟨arenaInv_push hinv2 ⟨by omega, h2⟩, by simp, by simp; omega⟩
      | uop p =>
        dsimp only at h
        rw [option_bind_some] at h
        obtain ⟨⟨p2, eb1⟩, hp, h⟩ := h
        dsimp only [expr_buffer_alloc] at h
        cases h
        have hpr : p < root := hinv root _ hg
        obtain ⟨hinv1, h1, hle1⟩ := ih _ _ _ _ _ hinv (by omega) hp
        exact ⟨arenaInv_push hinv1 h1, by simp, by simp; omega⟩

theorem decodeExpr_mono {eb : Arena} :
    ∀ f i e, decodeExpr f eb i = some e → decodeExpr (f + 1) eb i = some e := by
  intro f
  induction f with
  | zero => intro i e h; cases h
  | succ f ih =>
    intro i e h
    unfold decodeExpr at h ⊢
    cases hg : eb.get? i with
    | none => rw [hg] at h; cases h
    | some n =>
      rw [hg] at h
      cases n with
      | num v => exact h
      | cellRef r c => exact h
      | bop k l r =>
        dsimp only at h ⊢
        rw [option_bind_some] at h ⊢
        obtain ⟨el, hl, h⟩ := h
        refine ⟨el, ih _ _ hl, ?_⟩
        rw [option_bind_some] at h ⊢
        obtain ⟨er, hr, h⟩ := h
        exact ⟨er, ih _ _ hr, h⟩
      | uop p =>
        dsimp only at h ⊢
        rw [Option.map_eq_some'] at h ⊢
        obtain ⟨ep, hp, h⟩ := h
        exact ⟨ep, ih _ _ hp, h⟩

theorem decodeExpr_mono_le {eb : Arena} {f f' i : Nat} {e : Expr} (hle : f ≤ f')
    (h : decodeExpr f eb i = some e) : decodeExpr f' eb i = some e := by
  induction f' with
  | zero =>
    have hf : f = 0 := by omega
    subst hf; exact h
  | succ f' ih =>
    rcases Nat.lt_or_ge f (f' + 1) with hlt | hge
    · exact decodeExpr_mono _ _ _ (ih (by omega))
    · have hf : f = f' + 1 := by omega
      subst hf; exact h

theorem decode_total {eb : Arena} (h : ArenaInv eb) :
    ∀ i, i < eb.length → ∃ e, decodeExpr (i + 1) eb i = some e := by
  intro i
  induction i using Nat.strong_induction_on with
  | _ i ih =>
    intro hi
    have hg : ∃ n, eb.get? i = some n := by
      cases hgg : eb.get? i with
      | none => rw [List.get?_eq_none] at hgg; omega
      | some n => exact ⟨n, rfl⟩
    obtain ⟨n, hg⟩ := hg
    cases n with
    | num v => exact ⟨.num v, by unfold decodeExpr; rw [hg]⟩
    | cellRef r c => exact ⟨.cellRef r c, by unfold decodeExpr; rw [hg]⟩
    | bop k l r =>
      obtain ⟨hl, hr⟩ := h i _ hg
      obtain ⟨el, hel⟩ := ih l (by omega) (by omega)
      obtain ⟨er, her⟩ := ih r (by omega) (by omega)
      have hel' : decodeExpr i eb l = some el := decodeExpr_mono_le (by omega) hel
      have her' : decodeExpr i eb r = some er := decodeExpr_mono_le (by omega) her
      exact ⟨.bop k el er, by
        unfold decodeExpr
        rw [hg]
        dsimp only
        rw [hel', her']
        rfl⟩
    | uop p =>
      have hp : p < i := h i _ hg
      obtain ⟨ep, hep⟩ := ih p (by omega) (by omega)
      have hep' : decodeExpr i eb p = some ep := decodeExpr_mono_le (by omega) hep
      exact ⟨.neg ep, by
        unfold decodeExpr
        rw [hg]
        dsimp only
        rw [hep']
        rfl⟩

theorem move_expr_in_dir_mono {d : Dir} :
    ∀ f eb root x, move_expr_in_dir f eb root d = some x →
      move_expr_in_dir (f + 1) eb root d = some x := by
  intro f
  induction f with
  | zero => intro eb root x h; cases h
  | succ f ih =>
    intro eb root x h
    unfold move_expr_in_dir at h ⊢
    cases hg : eb.get? root with
    | none => rw [hg] at h; cases h
    | some n =>
      rw [hg] at h
      cases n with
      | num v => exact h
      | cellRef r c => exact h
      | bop k l r =>
        dsimp only at h ⊢
        rw [option_bind_some] at h ⊢
        obtain ⟨⟨l2, eb1⟩, hl, h⟩ := h
        refine ⟨⟨l2, eb1⟩, ih _ _ _ hl, ?_⟩
        dsimp only at h ⊢
        rw [option_bind_some] at h ⊢
        obtain ⟨⟨r2, eb2⟩, hr, h⟩ := h
        exact ⟨⟨r2, eb2⟩, ih _ _ _ hr, h⟩
      | uop p =>
        dsimp only at h ⊢
        rw [option_bind_some] at h ⊢
        obtain ⟨⟨p2, eb1⟩, hp, h⟩ := h
        exact ⟨⟨p2, eb1⟩, ih _ _ _ hp, h⟩

theorem move_expr_in_dir_mono_le {d : Dir} {f f' root : Nat} {eb : Arena}
    {x : Nat × Arena} (hle : f ≤ f')
    (h : move_expr_in_dir f eb root d = some x) :
    move_expr_in_dir f' eb root d = some x := by
  induction f' with
  | zero =>
    have hf : f = 0 := by omega
    subst hf; exact h
  | succ f' ih =>
    rcases Nat.lt_or_ge f (f' + 1) with hlt | hge
    · exact move_expr_in_dir_mono _ _ _ _ (ih (by omega))
    · have hf : f = f' + 1 := by omega
      subst hf; exact h

theorem move_total (d : Dir) :
    ∀ root eb, ArenaInv eb → root < eb.length →
      ∃ x, move_expr_in_dir (root + 1) eb root d = some x := by
  intro root
  induction root using Nat.strong_induction_on with
  | _ root ih =>
    intro eb hinv hroot
    have hg : ∃ n, eb.get? root = some n := by
      cases hgg : eb.get? root with
      | none => rw [List.get?_eq_none] at hgg; omega
      | some n => exact ⟨n, rfl⟩
    obtain ⟨n, hg⟩ := hg
    cases n with
    | num v => exact ⟨(root, eb), by unfold move_expr_in_dir; rw [hg]⟩
    | cellRef r c =>
      exact ⟨(eb.length, eb ++ [.cellRef (nbor_in_dir ⟨r, c⟩ d).row
        (nbor_in_dir ⟨r, c⟩ d).col]), by
        unfold move_expr_in_dir
        rw [hg]
        rfl⟩
    | bop k l r =>
      obtain ⟨hl, hr⟩ := hinv root _ hg
      obtain ⟨⟨l2, eb1⟩, hml⟩ := ih l (by omega) eb hinv (by omega)
      have hml' : move_expr_in_dir root eb l d = some (l2, eb1) :=
        move_expr_in_dir_mono_le (by omega) hml
      obtain ⟨hinv1, _, hle1⟩ := move_expr_in_dir_inv _ _ _ _ _ _ hinv (by omega) hml'
      obtain ⟨⟨r2, eb2⟩, hmr⟩ := ih r (by omega) eb1 hinv1 (by omega)
      have hmr' : move_expr_in_dir root eb1 r d = some (r2, eb2) :=
        move_expr_in_dir_mono_le (by omega) hmr
      exact ⟨(eb2.length, eb2 ++ [.bop k l2 r2]), by
        unfold move_expr_in_dir
        rw [hg]
        simp [hml', hmr', expr_buffer_alloc]⟩
    | uop p =>
      have hp : p < root := hinv root _ hg
      obtain ⟨⟨p2, eb1⟩, hmp⟩ := ih p (by omega) eb hinv (by omega)
      have hmp' : move_expr_in_dir root eb p d = some (p2, eb1) :=
        move_expr_in_dir_mono_le (by omega) hmp
      exact ⟨(eb1.length, eb1 ++ [.uop p2]), by
        unfold move_expr_in_dir
        rw [hg]
        simp [hmp', expr_buffer_alloc]⟩

/-- C9 (confirmed): the arena invariant — every binary and unary node's
child handles lie strictly below the node's own handle — holds after any
successful parse from an invariant-satisfying arena (with the returned
root inside the arena), and is preserved by every clone translation; as
a consequence every handle roots a finite acyclic tree (decoding with
fuel one more than the handle succeeds) and the structural recursion of
clone translation is well-founded (fuel one more than the root
suffices). -/
theorem c9_arena_children_lt :
    (∀ fuel src eb root eb' rest, ArenaInv eb →
      parse_expr fuel src eb = .ok (root, eb', rest) →
      ArenaInv eb' ∧ root < eb'.length) ∧
    (∀ fuel eb root d root' eb', ArenaInv eb → root < eb.length →
      move_expr_in_dir fuel eb root d = some (root', eb') →
      ArenaInv eb' ∧ root' < eb'.length) ∧
    (∀ eb, ArenaInv eb → ∀ i, i < eb.length → ∃ e, decodeExpr (i + 1) eb i = some e) ∧
    (∀ (d : Dir) eb root, ArenaInv eb → root < eb.length →
      ∃ x, move_expr_in_dir (root + 1) eb root d = some x) := by
  refine ⟨?_, ?_, ?_, ?_⟩
  · intro fuel src eb root eb' rest hinv h
    obtain ⟨a, b, _⟩ := parse_bop_expr_inv fuel 0 src eb root eb' rest hinv h
    exact ⟨a, b⟩
  · intro fuel eb root d root' eb' hinv hroot h
    obtain ⟨a, b, _⟩ := move_expr_in_dir_inv fuel eb root d root' eb' hinv hroot h
    exact ⟨a, b⟩
  · exact fun eb hinv i hi => decode_total hinv i hi
  · exact fun d eb root hinv hroot => move_total d root eb hinv hroot

section
attribute [local semireducible] Rat.mul Rat.add Rat.sub Rat.inv

/-- C9 witness: parsing `1+2` into the empty arena yields an
invariant-satisfying arena with its root in range; translating the root
left preserves the invariant, decodes, and terminates within fuel
root+1. -/
theorem c9_witness :
    (ArenaInv [Node.num 1, Node.num 2, Node.bop .plus 0 1,
        Node.bop .plus 0 1] ∧ 3 < 4) ∧
    (∃ e, decodeExpr 3 [Node.num 1, Node.num 2, Node.bop .plus 0 1] 2 = some e) ∧
    (∃ x, move_expr_in_dir 3
      [Node.num 1, Node.num 2, Node.bop .plus 0 1] 2 .left = some x) := by
  have first := c9_arena_children_lt.1 16 (("1+2").toList) [] 2
    [Node.num 1, Node.num 2, Node.bop .plus 0 1] [] arenaInv_nil rfl
  exact ⟨c9_arena_children_lt.2.1 3 [Node.num 1, Node.num 2, Node.bop .plus 0 1]
      2 .left 3 [Node.num 1, Node.num 2, Node.bop .plus 0 1, Node.bop .plus 0 1]
      first.1 first.2 rfl,
    c9_arena_children_lt.2.2.1 _ first.1 2 first.2,
    c9_arena_children_lt.2.2.2 .left _ 2 first.1 first.2⟩

end

section
attribute [local semireducible] Rat.mul Rat.add Rat.sub Rat.inv

/-- C4 counterexample: the cell `=A0+B0` at (0,1) of the grid
`x|=A0+B0` has a dependency chain that reaches back to itself (its `B0`
operand), yet evaluation fails with the text-in-math TypeError — the
left operand `A0` is a text cell and errors before the self-reference is
re-entered — not with CycleError as the claim's general clause states. -/
theorem c4_counterexample :
    evalFile 64 64 (("x|=A0+B0").toList) = .error .typeText ∧
    Err.typeText ≠ Err.cycle := by
  exact ⟨rfl, by decide⟩

/-- C5 counterexample: the cell `=A0+Z9` of the 1×2 grid `x|=A0+Z9`
contains the out-of-range reference `Z9` (row 9, col 25), yet evaluation
fails with the text-in-math TypeError — the left operand errors before
the out-of-range reference is reached — not with BoundsError as the
claim's "every expression containing" phrasing states. -/
theorem c5_counterexample :
    mkTable 64 (("x|=A0+Z9").toList) = .ok
      { rows := 1, cols := 2,
        cells := [
          { pay := .text [('x')], status := .unevaluated },
          { pay := .expr (.bop .plus (.cellRef 0 0) (.cellRef 9 25)) 0,
            status := .unevaluated }] } ∧
    ¬((9 : Nat) < 1 ∧ (25 : Nat) < 2) ∧
    evalFile 64 64 (("x|=A0+Z9").toList) = .error .typeText ∧
    Err.typeText ≠ Err.bounds := by
  exact ⟨rfl, by decide, rfl, by decide⟩

end

end ExcelCli
